import Mathlib

/-!
Verification of `go/vt/topo/srvshard.go`: the BSON-style codec for the
serving-graph topology records `SrvShard`, `KeyspacePartition` and
`SrvKeyspace`, together with the `SrvShardArray` ordering logic and the
`ShardName` derived operation.

Go strings are byte sequences; they are embedded as `List Nat` (each element
a byte value).  Encoders are pure functions producing the byte list that the
Go code appends to its `bytes2.ChunkedWriter`; decoders consume a `List Nat`
from the front and return the decoded value together with the unread rest,
or a decode fault (`BsonError`).  Go's decode-side panics are embedded as
`Except.error`.  Loops that walk a buffer until the end-of-object byte take
an explicit fuel argument; fuel at least the buffer length always suffices,
and running out of fuel is a distinct error that never occurs in the
theorems below.
-/

namespace Vitess

/-- A Go string / byte slice: a sequence of byte values. -/
abbrev GoStr := List Nat

namespace bson

/-- Wire type tag: end of object. -/
def EOO : Nat := 0

/-- Wire type tag: string. -/
def StringTag : Nat := 2

/-- Wire type tag: object. -/
def Object : Nat := 3

/-- Wire type tag: array. -/
def Array : Nat := 4

/-- Wire type tag: binary string. -/
def Binary : Nat := 5

/-- Wire type tag: null. -/
def Null : Nat := 10

end bson

/-- Decode fault raised by the decoders (`bson.NewBsonError` panics in Go).
`unexpectedTag` carries the offending tag byte and the context text of the
error message; `truncated` is a read past the end of the buffer; `outOfFuel`
is an artifact of the fuel discipline and never occurs with enough fuel. -/
inductive BsonError where
  | unexpectedTag (tag : Nat) (context : String)
  | truncated
  | outOfFuel
deriving DecidableEq, Repr

/-- Result of a decoding step: the value and the unread rest of the buffer. -/
abbrev DecodeResult (α : Type) := Except BsonError (α × List Nat)

/-- Modelled from the spec: `bson.NextByte` of the missing bson package reads
one byte from the buffer. -/
def nextByte (buf : List Nat) : DecodeResult Nat :=
  match buf with
  | [] => .error .truncated
  | b :: rest => .ok (b, rest)

/-- Modelled from the spec: `bson.Next(buf, 4)` of the missing bson package
consumes the four bytes of a length prefix without interpreting them. -/
def next4 (buf : List Nat) : DecodeResult Unit :=
  match buf with
  | _ :: _ :: _ :: _ :: rest => .ok ((), rest)
  | _ => .error .truncated

/-- Modelled from the spec: the 4-byte little-endian length prefix written by
the missing bson package's length writer. -/
def lenBytes (n : Nat) : List Nat :=
  [n % 256, n / 256 % 256, n / 65536 % 256, n / 16777216 % 256]

/-- Modelled from the spec: reading a 4-byte little-endian length prefix. -/
def readLen32 (buf : List Nat) : DecodeResult Nat :=
  match buf with
  | b0 :: b1 :: b2 :: b3 :: rest =>
      .ok (b0 + 256 * b1 + 65536 * b2 + 16777216 * b3, rest)
  | _ => .error .truncated

/-- Modelled from the spec: a length-prefixed block (§4.1): a 4-byte length
placeholder patched with the byte count written after it — the children plus
the one terminating zero byte. -/
def lenDoc (body : List Nat) : List Nat :=
  lenBytes (body.length + 1) ++ body ++ [0]

/-- Modelled from the spec: `bson.EncodePrefix` of the missing bson package
writes the one-byte type tag followed by the field name as a C string. -/
def encodePrefix (kind : Nat) (name : GoStr) : List Nat :=
  kind :: name ++ [0]

/-- Modelled from the spec: `bson.ReadCString` of the missing bson package
reads bytes up to and including a terminating zero byte. -/
def readCString (buf : List Nat) : DecodeResult GoStr :=
  match buf with
  | [] => .error .truncated
  | b :: rest =>
      if b = 0 then .ok ([], rest)
      else
        match readCString rest with
        | .ok (s, r) => .ok (b :: s, r)
        | .error e => .error e

/-- Modelled from the spec: `bson.SkipIndex` of the missing bson package
discards the decimal index field name of an array element. -/
def skipIndex (buf : List Nat) : DecodeResult Unit :=
  match readCString buf with
  | .ok (_, r) => .ok ((), r)
  | .error e => .error e

/-- Modelled from the spec: dropping exactly `n` bytes, faulting when the
buffer is shorter. -/
def dropN (n : Nat) (buf : List Nat) : DecodeResult Unit :=
  if n ≤ buf.length then .ok ((), buf.drop n) else .error .truncated

/-- Modelled from the spec: taking exactly `n` bytes, faulting when the
buffer is shorter. -/
def takeN (n : Nat) (buf : List Nat) : DecodeResult (List Nat) :=
  if n ≤ buf.length then .ok (buf.take n, buf.drop n) else .error .truncated

/-- Modelled from the spec: `bson.Itoa` renders an array index as its decimal
digit string, used as the field name of an array element. -/
def itoaAux : Nat → List Nat → List Nat
  | 0, acc => acc
  | n + 1, acc => itoaAux ((n + 1) / 10) (((n + 1) % 10 + 48) :: acc)
decreasing_by exact Nat.div_lt_self (Nat.succ_pos n) (by omega)

/-- Modelled from the spec: `bson.Itoa`, decimal ASCII digits of `i`. -/
def itoa (i : Nat) : GoStr :=
  match i with
  | 0 => [48]
  | n + 1 => itoaAux (n + 1) []

/-- Modelled from the spec: `bson.EncodeString` of the missing bson package
writes a Go string as a Binary-tagged element: prefix, 4-byte byte count,
one zero subtype byte, then the bytes. -/
def encodeString (name : GoStr) (s : GoStr) : List Nat :=
  encodePrefix bson.Binary name ++ lenBytes s.length ++ [0] ++ s

/-- Modelled from the spec: `bson.DecodeString` of the missing bson package.
A String-tagged body is a 4-byte count (bytes plus terminator), the bytes and
a trailing zero; a Binary-tagged body is a 4-byte count, a subtype byte and
the bytes.  Any other tag is a hard decode fault naming the tag. -/
def decodeString (kind : Nat) (buf : List Nat) : DecodeResult GoStr :=
  if kind = bson.StringTag then
    match readLen32 buf with
    | .ok (n, r) =>
        (match takeN n r with
         | .ok (s, r2) => .ok (s.take (n - 1), r2)
         | .error e => .error e)
    | .error e => .error e
  else if kind = bson.Binary then
    match readLen32 buf with
    | .ok (n, r) =>
        (match nextByte r with
         | .ok (_, r1) =>
             (match takeN n r1 with
              | .ok (s, r2) => .ok (s, r2)
              | .error e => .error e)
         | .error e => .error e)
    | .error e => .error e
  else .error (.unexpectedTag kind "string")

/-- Modelled from the spec: `bson.Skip` of the missing bson package consumes
and discards one value body according to its tag, jumping composite bodies by
their recorded length (§4.1); an unknown tag is a decode fault. -/
def skip (kind : Nat) (buf : List Nat) : DecodeResult Unit :=
  if kind = bson.Object ∨ kind = bson.Array then
    match readLen32 buf with
    | .ok (n, r) => dropN n r
    | .error e => .error e
  else if kind = bson.Binary then
    match readLen32 buf with
    | .ok (n, r) => dropN (n + 1) r
    | .error e => .error e
  else if kind = bson.StringTag then
    match readLen32 buf with
    | .ok (n, r) => dropN n r
    | .error e => .error e
  else if kind = bson.Null then .ok ((), buf)
  else .error (.unexpectedTag kind "skip")

/-- Modelled from the spec: `bson.VerifyObject` of the missing bson package
requires the tag introducing a nested object decode to be Object. -/
def verifyObject (kind : Nat) : Except BsonError Unit :=
  if kind = bson.Object then .ok () else .error (.unexpectedTag kind "object")

/-- TabletType: an opaque string-valued role identifier (a Go string). -/
abbrev TabletType := GoStr

/-- The field name "Start" as bytes. -/
def nmStart : GoStr := [83, 116, 97, 114, 116]

/-- The field name "End" as bytes. -/
def nmEnd : GoStr := [69, 110, 100]

/-- The field name "KeyRange" as bytes. -/
def nmKeyRange : GoStr := [75, 101, 121, 82, 97, 110, 103, 101]

/-- The field name "ServedTypes" as bytes. -/
def nmServedTypes : GoStr := [83, 101, 114, 118, 101, 100, 84, 121, 112, 101, 115]

/-- The field name "TabletTypes" as bytes. -/
def nmTabletTypes : GoStr := [84, 97, 98, 108, 101, 116, 84, 121, 112, 101, 115]

/-- The field name "Shards" as bytes. -/
def nmShards : GoStr := [83, 104, 97, 114, 100, 115]

/-- The field name "Partitions" as bytes. -/
def nmPartitions : GoStr := [80, 97, 114, 116, 105, 116, 105, 111, 110, 115]

/-- The field name "ShardingColumnName" as bytes. -/
def nmShardingColumnName : GoStr :=
  [83, 104, 97, 114, 100, 105, 110, 103, 67, 111, 108, 117, 109, 110, 78, 97,
   109, 101]

/-- The field name "ShardingColumnType" as bytes. -/
def nmShardingColumnType : GoStr :=
  [83, 104, 97, 114, 100, 105, 110, 103, 67, 111, 108, 117, 109, 110, 84, 121,
   112, 101]

/-- The field name "ServedFrom" as bytes. -/
def nmServedFrom : GoStr := [83, 101, 114, 118, 101, 100, 70, 114, 111, 109]

/-- Modelled from the spec: `key.KeyRange` of the missing key package, the
half-open interval [Start, End) over the keyspace-id domain; a keyspace id is
a Go string of bytes, and the empty Start together with the empty End spans
the entire domain. -/
structure KeyRange where
  Start : GoStr
  End : GoStr
deriving DecidableEq, Repr

/-- Modelled from the spec: `key.KeyRange.IsPartial`, false only when the
interval spans the entire domain. -/
def KeyRange.IsPartial (kr : KeyRange) : Bool :=
  ¬ (kr.Start = [] ∧ kr.End = [])

/-- Modelled from the spec: one lowercase hexadecimal digit character. -/
def hexDigit (n : Nat) : Char :=
  if n < 10 then Char.ofNat (48 + n) else Char.ofNat (87 + n)

/-- Modelled from the spec: `key.KeyspaceId.Hex`, the lowercase hexadecimal
rendering of a keyspace id, two digits per byte. -/
def hexStr (s : GoStr) : String :=
  String.mk (s.flatMap fun b => [hexDigit (b / 16 % 16), hexDigit (b % 16)])

/-- Modelled from the spec: the children of a marshalled `key.KeyRange`: the
Start and End keyspace ids as binary strings, in that order. -/
def KeyRange.bodyBson (kr : KeyRange) : List Nat :=
  encodeString nmStart kr.Start ++ encodeString nmEnd kr.End

/-- Modelled from the spec: `key.KeyRange.MarshalBson`, the nested object
codec of the missing key package: an Object holding the Start and End
keyspace ids as binary strings, in that order. -/
def KeyRange.MarshalBson (kr : KeyRange) (key : GoStr) : List Nat :=
  encodePrefix bson.Object key ++ lenDoc kr.bodyBson

/-- Modelled from the spec: the field loop of `key.KeyRange.UnmarshalBson`,
populating the existing value in place: known field names dispatch to the
string decoder, unknown ones are skipped, until the end-of-object byte. -/
def keyRangeFields (fuel : Nat) (kr : KeyRange) (buf : List Nat) :
    DecodeResult KeyRange :=
  match fuel with
  | 0 => .error .outOfFuel
  | fuel + 1 =>
    match nextByte buf with
    | .error e => .error e
    | .ok (kind, r0) =>
      if kind = bson.EOO then .ok (kr, r0)
      else
        match readCString r0 with
        | .error e => .error e
        | .ok (keyName, r1) =>
          if keyName = nmStart then
            match decodeString kind r1 with
            | .ok (s, r2) => keyRangeFields fuel { kr with Start := s } r2
            | .error e => .error e
          else if keyName = nmEnd then
            match decodeString kind r1 with
            | .ok (s, r2) => keyRangeFields fuel { kr with End := s } r2
            | .error e => .error e
          else
            match skip kind r1 with
            | .ok (_, r2) => keyRangeFields fuel kr r2
            | .error e => .error e

/-- Modelled from the spec: `key.KeyRange.UnmarshalBson` verifies the Object
tag, consumes the length prefix, and runs the field loop over the existing
value. -/
def KeyRange.UnmarshalBson (fuel : Nat) (kr : KeyRange) (kind : Nat)
    (buf : List Nat) : DecodeResult KeyRange :=
  match verifyObject kind with
  | .error e => .error e
  | .ok _ =>
    match next4 buf with
    | .error e => .error e
    | .ok (_, r) => keyRangeFields fuel kr r

/-- SrvShard: the roll-up of one shard in the local namespace, from
`go/vt/topo/srvshard.go`.  The `version` field is the unexported
optimistic-concurrency token. -/
structure SrvShard where
  KeyRange : KeyRange
  ServedTypes : List TabletType
  TabletTypes : List TabletType
  version : Int
deriving DecidableEq, Repr

/-- The zero value `SrvShard{}` allocated by the decoders. -/
def SrvShard.zero : SrvShard := ⟨⟨[], []⟩, [], [], 0⟩

/-- SHARD_ZERO, the shard name when the key range covers the entire space. -/
def SHARD_ZERO : String := "0"

/-- `NewSrvShard`: a zero shard seeded with a version token. -/
def NewSrvShard (version : Int) : SrvShard :=
  { SrvShard.zero with version := version }

/-- `SrvShard.ShardName`: the literal "0" for a full-domain range, otherwise
the hex-encoded boundaries joined by a hyphen. -/
def SrvShard.ShardName (ss : SrvShard) : String :=
  if ¬ ss.KeyRange.IsPartial then SHARD_ZERO
  else hexStr ss.KeyRange.Start ++ "-" ++ hexStr ss.KeyRange.End

/-- `EncodeTabletTypeArray`: an empty sequence encodes as a Null-tagged
field; a non-empty one as an Array whose children are the elements as binary
strings under decimal index names. -/
def EncodeTabletTypeArray (name : GoStr) (values : List TabletType) :
    List Nat :=
  if values.length = 0 then encodePrefix bson.Null name
  else
    encodePrefix bson.Array name ++
      lenDoc ((values.enum.map fun p => encodeString (itoa p.1) p.2).flatten)

/-- The element loop of `DecodeTabletTypeArray`: each element must be
Binary-tagged — any other tag is a hard decode fault naming the tag — and
elements accumulate in wire order until the end-of-object byte. -/
def tabletTypeElems (fuel : Nat) (acc : List TabletType) (buf : List Nat) :
    DecodeResult (List TabletType) :=
  match fuel with
  | 0 => .error .outOfFuel
  | fuel + 1 =>
    match nextByte buf with
    | .error e => .error e
    | .ok (kind, r0) =>
      if kind = bson.EOO then .ok (acc, r0)
      else if kind ≠ bson.Binary then
        .error (.unexpectedTag kind "TabletType array")
      else
        match skipIndex r0 with
        | .error e => .error e
        | .ok (_, r1) =>
          match decodeString kind r1 with
          | .ok (s, r2) => tabletTypeElems fuel (acc ++ [s]) r2
          | .error e => .error e

/-- `DecodeTabletTypeArray`: Null decodes to the empty sequence, Array to the
element loop, and any other leading tag is a hard decode fault. -/
def DecodeTabletTypeArray (fuel : Nat) (kind : Nat) (buf : List Nat) :
    DecodeResult (List TabletType) :=
  if kind = bson.Array then
    match next4 buf with
    | .error e => .error e
    | .ok (_, r) => tabletTypeElems fuel [] r
  else if kind = bson.Null then .ok ([], buf)
  else .error (.unexpectedTag kind "TabletType array")

/-- The children of a marshalled `SrvShard`, in the fixed order written by
`SrvShard.MarshalBson`: KeyRange, ServedTypes, TabletTypes. -/
def SrvShard.bodyBson (ss : SrvShard) : List Nat :=
  ss.KeyRange.MarshalBson nmKeyRange ++
    EncodeTabletTypeArray nmServedTypes ss.ServedTypes ++
    EncodeTabletTypeArray nmTabletTypes ss.TabletTypes

/-- `SrvShard.MarshalBson`: an Object holding, in fixed order, the KeyRange,
ServedTypes and TabletTypes fields; the version token is not written. -/
def SrvShard.MarshalBson (ss : SrvShard) (key : GoStr) : List Nat :=
  encodePrefix bson.Object key ++ lenDoc ss.bodyBson

/-- The field loop of `SrvShard.UnmarshalBson`: dispatch on the field name,
decoding KeyRange in place and the two role sequences by assignment; unknown
field names are skipped by their own tag. -/
def srvShardFields (fuel : Nat) (ss : SrvShard) (buf : List Nat) :
    DecodeResult SrvShard :=
  match fuel with
  | 0 => .error .outOfFuel
  | fuel + 1 =>
    match nextByte buf with
    | .error e => .error e
    | .ok (kind, r0) =>
      if kind = bson.EOO then .ok (ss, r0)
      else
        match readCString r0 with
        | .error e => .error e
        | .ok (keyName, r1) =>
          if keyName = nmKeyRange then
            match ss.KeyRange.UnmarshalBson fuel kind r1 with
            | .ok (kr, r2) => srvShardFields fuel { ss with KeyRange := kr } r2
            | .error e => .error e
          else if keyName = nmServedTypes then
            match DecodeTabletTypeArray fuel kind r1 with
            | .ok (v, r2) => srvShardFields fuel { ss with ServedTypes := v } r2
            | .error e => .error e
          else if keyName = nmTabletTypes then
            match DecodeTabletTypeArray fuel kind r1 with
            | .ok (v, r2) => srvShardFields fuel { ss with TabletTypes := v } r2
            | .error e => .error e
          else
            match skip kind r1 with
            | .ok (_, r2) => srvShardFields fuel ss r2
            | .error e => .error e

/-- `SrvShard.UnmarshalBson`: verify the Object tag, consume the length
prefix, then run the field loop over the existing value. -/
def SrvShard.UnmarshalBson (fuel : Nat) (ss : SrvShard) (kind : Nat)
    (buf : List Nat) : DecodeResult SrvShard :=
  match verifyObject kind with
  | .error e => .error e
  | .ok _ =>
    match next4 buf with
    | .error e => .error e
    | .ok (_, r) => srvShardFields fuel ss r

/-- `SrvShardArray.Less`: shard `i` orders before shard `j` when its
KeyRange.Start is lexicographically smaller as a Go string. -/
def goStrLt : GoStr → GoStr → Bool
  | [], [] => false
  | [], _ :: _ => true
  | _ :: _, [] => false
  | a :: s, b :: t => if a < b then true else if b < a then false else goStrLt s t

/-- The comparison used by `SrvShardArray.Less`. -/
def shardLess (a b : SrvShard) : Bool := goStrLt a.KeyRange.Start b.KeyRange.Start

/-- Modelled from the spec: the single insertion step of the sort behind
`SrvShardArray.Sort` — `sort.Sort` itself is Go standard-library code outside
this repository; §4.4 specifies an ascending sort by `KeyRange.Start` using
the source's `Less`, and this stable insertion realizes that contract. -/
def orderedInsertShard (a : SrvShard) : List SrvShard → List SrvShard
  | [] => [a]
  | b :: l => if shardLess b a then b :: orderedInsertShard a l else a :: b :: l

/-- Modelled from the spec: `SrvShardArray.Sort`, an ascending sort of the
shard sequence by `KeyRange.Start` under the source's `Less` relation. -/
def SrvShardArray.Sort (sa : List SrvShard) : List SrvShard :=
  sa.foldr orderedInsertShard []

/-- KeyspacePartition: a continuous set of shards serving an entire data
set. -/
structure KeyspacePartition where
  Shards : List SrvShard
deriving DecidableEq, Repr

/-- The zero value `KeyspacePartition{}` allocated by the map decoder. -/
def KeyspacePartition.zero : KeyspacePartition := ⟨[]⟩

/-- `EncodeSrvShardArray`: an empty sequence encodes as a Null-tagged field;
a non-empty one as an Array whose children are the shard objects under
decimal index names. -/
def EncodeSrvShardArray (name : GoStr) (values : List SrvShard) : List Nat :=
  if values.length = 0 then encodePrefix bson.Null name
  else
    encodePrefix bson.Array name ++
      lenDoc ((values.enum.map fun p => p.2.MarshalBson (itoa p.1)).flatten)

/-- The element loop of `DecodeSrvShardArray`: each element must be
Object-tagged — any other tag is a hard decode fault naming the tag — and
each is decoded into a freshly allocated zero `SrvShard`. -/
def srvShardElems (fuel : Nat) (acc : List SrvShard) (buf : List Nat) :
    DecodeResult (List SrvShard) :=
  match fuel with
  | 0 => .error .outOfFuel
  | fuel + 1 =>
    match nextByte buf with
    | .error e => .error e
    | .ok (kind, r0) =>
      if kind = bson.EOO then .ok (acc, r0)
      else if kind ≠ bson.Object then
        .error (.unexpectedTag kind "SrvShard array")
      else
        match skipIndex r0 with
        | .error e => .error e
        | .ok (_, r1) =>
          match SrvShard.zero.UnmarshalBson fuel kind r1 with
          | .ok (v, r2) => srvShardElems fuel (acc ++ [v]) r2
          | .error e => .error e

/-- `DecodeSrvShardArray`: Null decodes to the empty sequence, Array to the
element loop, and any other leading tag is a hard decode fault. -/
def DecodeSrvShardArray (fuel : Nat) (kind : Nat) (buf : List Nat) :
    DecodeResult (List SrvShard) :=
  if kind = bson.Array then
    match next4 buf with
    | .error e => .error e
    | .ok (_, r) => srvShardElems fuel [] r
  else if kind = bson.Null then .ok ([], buf)
  else .error (.unexpectedTag kind "SrvShard array")

/-- The children of a marshalled `KeyspacePartition`: the single Shards
field. -/
def KeyspacePartition.bodyBson (kp : KeyspacePartition) : List Nat :=
  EncodeSrvShardArray nmShards kp.Shards

/-- `KeyspacePartition.MarshalBson`: an Object holding the single Shards
field. -/
def KeyspacePartition.MarshalBson (kp : KeyspacePartition) (key : GoStr) :
    List Nat :=
  encodePrefix bson.Object key ++ lenDoc kp.bodyBson

/-- The field loop of `KeyspacePartition.UnmarshalBson`: the Shards field
dispatches to the shard-array decoder, unknown field names are skipped. -/
def kpFields (fuel : Nat) (kp : KeyspacePartition) (buf : List Nat) :
    DecodeResult KeyspacePartition :=
  match fuel with
  | 0 => .error .outOfFuel
  | fuel + 1 =>
    match nextByte buf with
    | .error e => .error e
    | .ok (kind, r0) =>
      if kind = bson.EOO then .ok (kp, r0)
      else
        match readCString r0 with
        | .error e => .error e
        | .ok (keyName, r1) =>
          if keyName = nmShards then
            match DecodeSrvShardArray fuel kind r1 with
            | .ok (v, r2) => kpFields fuel { Shards := v } r2
            | .error e => .error e
          else
            match skip kind r1 with
            | .ok (_, r2) => kpFields fuel kp r2
            | .error e => .error e

/-- `KeyspacePartition.UnmarshalBson`: verify the Object tag, consume the
length prefix, then run the field loop over the existing value. -/
def KeyspacePartition.UnmarshalBson (fuel : Nat) (kp : KeyspacePartition)
    (kind : Nat) (buf : List Nat) : DecodeResult KeyspacePartition :=
  match verifyObject kind with
  | .error e => .error e
  | .ok _ =>
    match next4 buf with
    | .error e => .error e
    | .ok (_, r) => kpFields fuel kp r

/-- SrvKeyspace: the distilled serving copy of keyspace detail.  The two Go
maps are embedded as association lists whose keys are unique in any value a
Go program can hold; `version` is the unexported concurrency token. -/
structure SrvKeyspace where
  Partitions : List (TabletType × KeyspacePartition)
  Shards : List SrvShard
  TabletTypes : List TabletType
  ShardingColumnName : GoStr
  ShardingColumnType : GoStr
  ServedFrom : List (TabletType × GoStr)
  version : Int
deriving DecidableEq, Repr

/-- The zero value `SrvKeyspace{}`. -/
def SrvKeyspace.zero : SrvKeyspace := ⟨[], [], [], [], [], [], 0⟩

/-- `NewSrvKeyspace`: a zero keyspace record seeded with a version token. -/
def NewSrvKeyspace (version : Int) : SrvKeyspace :=
  { SrvKeyspace.zero with version := version }

/-- Assignment into a Go map: replace the value at an existing key, append a
new key at the end. -/
def mapInsert {α : Type} (k : GoStr) (v : α) :
    List (GoStr × α) → List (GoStr × α)
  | [] => [(k, v)]
  | (k0, v0) :: rest =>
      if k0 = k then (k, v) :: rest else (k0, v0) :: mapInsert k v rest

/-- `EncodeKeyspacePartitionMap`: an empty or absent map encodes as a
Null-tagged field; a non-empty one as an Object whose field names are the
literal map keys and whose values are the encoded partitions. -/
def EncodeKeyspacePartitionMap (name : GoStr)
    (values : List (TabletType × KeyspacePartition)) : List Nat :=
  if values.length = 0 then encodePrefix bson.Null name
  else
    encodePrefix bson.Object name ++
      lenDoc ((values.map fun p => p.2.MarshalBson p.1).flatten)

/-- The entry loop of `DecodeKeyspacePartitionMap`: each entry must be
Object-tagged — any other tag is a hard decode fault naming the tag — and is
decoded into a freshly allocated zero partition stored under the literal
field name. -/
def kpMapElems (fuel : Nat) (acc : List (TabletType × KeyspacePartition))
    (buf : List Nat) : DecodeResult (List (TabletType × KeyspacePartition)) :=
  match fuel with
  | 0 => .error .outOfFuel
  | fuel + 1 =>
    match nextByte buf with
    | .error e => .error e
    | .ok (kind, r0) =>
      if kind = bson.EOO then .ok (acc, r0)
      else if kind ≠ bson.Object then
        .error (.unexpectedTag kind "KeyspacePartition map")
      else
        match readCString r0 with
        | .error e => .error e
        | .ok (keyName, r1) =>
          match KeyspacePartition.zero.UnmarshalBson fuel kind r1 with
          | .ok (v, r2) => kpMapElems fuel (mapInsert keyName v acc) r2
          | .error e => .error e

/-- `DecodeKeyspacePartitionMap`: Null decodes to the absent map, Object to
the entry loop, and any other leading tag is a hard decode fault. -/
def DecodeKeyspacePartitionMap (fuel : Nat) (kind : Nat) (buf : List Nat) :
    DecodeResult (List (TabletType × KeyspacePartition)) :=
  if kind = bson.Object then
    match next4 buf with
    | .error e => .error e
    | .ok (_, r) => kpMapElems fuel [] r
  else if kind = bson.Null then .ok ([], buf)
  else .error (.unexpectedTag kind "KeyspacePartition map")

/-- `EncodeServedFrom`: always an Object — with no emptiness check — whose
field names are the literal map keys and whose values are the redirect
keyspace names as binary strings. -/
def EncodeServedFrom (name : GoStr) (servedFrom : List (TabletType × GoStr)) :
    List Nat :=
  encodePrefix bson.Object name ++
    lenDoc ((servedFrom.map fun p => encodeString p.1 p.2).flatten)

/-- The entry loop of `DecodeServedFrom`: each entry's key is read, then the
value is stored only when its tag is String or Binary; any other tag falls
through the switch with no assignment, no fault and no consumption of a value
body. -/
def servedFromElems (fuel : Nat) (acc : List (TabletType × GoStr))
    (buf : List Nat) : DecodeResult (List (TabletType × GoStr)) :=
  match fuel with
  | 0 => .error .outOfFuel
  | fuel + 1 =>
    match nextByte buf with
    | .error e => .error e
    | .ok (kind, r0) =>
      if kind = bson.EOO then .ok (acc, r0)
      else
        match readCString r0 with
        | .error e => .error e
        | .ok (keyName, r1) =>
          if kind = bson.StringTag ∨ kind = bson.Binary then
            match decodeString kind r1 with
            | .ok (s, r2) => servedFromElems fuel (mapInsert keyName s acc) r2
            | .error e => .error e
          else servedFromElems fuel acc r1

/-- `DecodeServedFrom`: Null decodes to the absent map, Object to the entry
loop, and any other leading tag is a hard decode fault. -/
def DecodeServedFrom (fuel : Nat) (kind : Nat) (buf : List Nat) :
    DecodeResult (List (TabletType × GoStr)) :=
  if kind = bson.Object then
    match next4 buf with
    | .error e => .error e
    | .ok (_, r) => servedFromElems fuel [] r
  else if kind = bson.Null then .ok ([], buf)
  else .error (.unexpectedTag kind "ServedFrom map")

/-- The children of a marshalled `SrvKeyspace`, in the fixed order written by
`SrvKeyspace.MarshalBson`: Partitions, Shards, TabletTypes,
ShardingColumnName, ShardingColumnType, ServedFrom. -/
def SrvKeyspace.bodyBson (sk : SrvKeyspace) : List Nat :=
  EncodeKeyspacePartitionMap nmPartitions sk.Partitions ++
    EncodeSrvShardArray nmShards sk.Shards ++
    EncodeTabletTypeArray nmTabletTypes sk.TabletTypes ++
    encodeString nmShardingColumnName sk.ShardingColumnName ++
    encodeString nmShardingColumnType sk.ShardingColumnType ++
    EncodeServedFrom nmServedFrom sk.ServedFrom

/-- `SrvKeyspace.MarshalBson`: an Object holding, in fixed order, Partitions,
Shards, TabletTypes, ShardingColumnName, ShardingColumnType and ServedFrom;
the version token is not written. -/
def SrvKeyspace.MarshalBson (sk : SrvKeyspace) (key : GoStr) : List Nat :=
  encodePrefix bson.Object key ++ lenDoc sk.bodyBson

/-- The field loop of `SrvKeyspace.UnmarshalBson`: dispatch on the field
name to the matching sub-decoder, skipping unknown field names by their own
tag. -/
def srvKeyspaceFields (fuel : Nat) (sk : SrvKeyspace) (buf : List Nat) :
    DecodeResult SrvKeyspace :=
  match fuel with
  | 0 => .error .outOfFuel
  | fuel + 1 =>
    match nextByte buf with
    | .error e => .error e
    | .ok (kind, r0) =>
      if kind = bson.EOO then .ok (sk, r0)
      else
        match readCString r0 with
        | .error e => .error e
        | .ok (keyName, r1) =>
          if keyName = nmPartitions then
            match DecodeKeyspacePartitionMap fuel kind r1 with
            | .ok (v, r2) => srvKeyspaceFields fuel { sk with Partitions := v } r2
            | .error e => .error e
          else if keyName = nmShards then
            match DecodeSrvShardArray fuel kind r1 with
            | .ok (v, r2) => srvKeyspaceFields fuel { sk with Shards := v } r2
            | .error e => .error e
          else if keyName = nmTabletTypes then
            match DecodeTabletTypeArray fuel kind r1 with
            | .ok (v, r2) => srvKeyspaceFields fuel { sk with TabletTypes := v } r2
            | .error e => .error e
          else if keyName = nmShardingColumnName then
            match decodeString kind r1 with
            | .ok (s, r2) =>
                srvKeyspaceFields fuel { sk with ShardingColumnName := s } r2
            | .error e => .error e
          else if keyName = nmShardingColumnType then
            match decodeString kind r1 with
            | .ok (s, r2) =>
                srvKeyspaceFields fuel { sk with ShardingColumnType := s } r2
            | .error e => .error e
          else if keyName = nmServedFrom then
            match DecodeServedFrom fuel kind r1 with
            | .ok (v, r2) => srvKeyspaceFields fuel { sk with ServedFrom := v } r2
            | .error e => .error e
          else
            match skip kind r1 with
            | .ok (_, r2) => srvKeyspaceFields fuel sk r2
            | .error e => .error e

/-- `SrvKeyspace.UnmarshalBson`: verify the Object tag, consume the length
prefix, then run the field loop over the existing value. -/
def SrvKeyspace.UnmarshalBson (fuel : Nat) (sk : SrvKeyspace) (kind : Nat)
    (buf : List Nat) : DecodeResult SrvKeyspace :=
  match verifyObject kind with
  | .error e => .error e
  | .ok _ =>
    match next4 buf with
    | .error e => .error e
    | .ok (_, r) => srvKeyspaceFields fuel sk r

/-! Wellformedness of in-memory values.  Go restricts these by construction:
a byte slice shorter than 2^32 has its length written faithfully into the
4-byte count of a binary string, and a Go map key never contains the zero
byte that terminates its field name on the wire (map keys are field names).
Map keys of one Go map are pairwise distinct, which for the association-list
embedding is nodup of the key column. -/

/-- A Go string whose length fits the 4-byte count of a binary string. -/
def strOk (s : GoStr) : Prop := s.length < 4294967296

/-- Wellformedness of a KeyRange value. -/
def KeyRange.wf (kr : KeyRange) : Prop := strOk kr.Start ∧ strOk kr.End

/-- Wellformedness of a SrvShard value. -/
def SrvShard.wf (ss : SrvShard) : Prop :=
  ss.KeyRange.wf ∧ (∀ t ∈ ss.ServedTypes, strOk t) ∧
    (∀ t ∈ ss.TabletTypes, strOk t)

/-- Wellformedness of a KeyspacePartition value. -/
def KeyspacePartition.wf (kp : KeyspacePartition) : Prop :=
  ∀ s ∈ kp.Shards, s.wf

/-- Wellformedness of a SrvKeyspace value: wellformed components, zero-free
map keys and pairwise distinct keys in each of the two maps. -/
def SrvKeyspace.wf (sk : SrvKeyspace) : Prop :=
  (∀ p ∈ sk.Partitions, 0 ∉ p.1 ∧ p.2.wf) ∧
    (sk.Partitions.map Prod.fst).Nodup ∧
    (∀ s ∈ sk.Shards, s.wf) ∧
    (∀ t ∈ sk.TabletTypes, strOk t) ∧
    strOk sk.ShardingColumnName ∧ strOk sk.ShardingColumnType ∧
    (∀ p ∈ sk.ServedFrom, 0 ∉ p.1 ∧ strOk p.2) ∧
    (sk.ServedFrom.map Prod.fst).Nodup

instance (s : GoStr) : Decidable (strOk s) := by unfold strOk; infer_instance

instance (kr : KeyRange) : Decidable kr.wf := by
  unfold KeyRange.wf; infer_instance

instance (ss : SrvShard) : Decidable ss.wf := by
  unfold SrvShard.wf; infer_instance

instance (kp : KeyspacePartition) : Decidable kp.wf := by
  unfold KeyspacePartition.wf; infer_instance

instance (sk : SrvKeyspace) : Decidable sk.wf := by
  unfold SrvKeyspace.wf; infer_instance

/-! The decoders allocate a fresh zero `SrvShard` for every sequence element
and a fresh zero partition for every map entry, so the unexported version
tokens of nested records come back as zero; the following maps state the
decoded shape of a value. -/

/-- A SrvShard with its version token reset to the zero value's. -/
def SrvShard.cleared (ss : SrvShard) : SrvShard := { ss with version := 0 }

/-- A KeyspacePartition with nested version tokens reset. -/
def KeyspacePartition.cleared (kp : KeyspacePartition) : KeyspacePartition :=
  ⟨kp.Shards.map SrvShard.cleared⟩

/-- A SrvKeyspace with all nested version tokens and its own reset. -/
def SrvKeyspace.cleared (sk : SrvKeyspace) : SrvKeyspace :=
  { sk with
    Partitions := sk.Partitions.map fun p => (p.1, p.2.cleared),
    Shards := sk.Shards.map SrvShard.cleared,
    version := 0 }

/-! Fuel bounds: each bound dominates the number of iterations of the
corresponding loop on the encoding of the given value, with room for the
loops it nests. -/

/-- Fuel bound for the element loop of a TabletType array. -/
def ttNeed (l : List TabletType) : Nat := l.length + 1

/-- Fuel bound for the field loop of a KeyRange document. -/
def krNeed : Nat := 3

/-- Fuel bound for decoding a marshalled SrvShard document. -/
def SrvShard.fuelNeed (ss : SrvShard) : Nat :=
  krNeed + ttNeed ss.ServedTypes + ttNeed ss.TabletTypes + 4

/-- Fuel bound for the element loop of a SrvShard array. -/
def shardsNeed (l : List SrvShard) : Nat :=
  l.foldr (fun s a => s.fuelNeed + 1 + a) 1

/-- Fuel bound for decoding a marshalled KeyspacePartition document. -/
def KeyspacePartition.fuelNeed (kp : KeyspacePartition) : Nat :=
  shardsNeed kp.Shards + 2

/-- Fuel bound for the entry loop of a KeyspacePartition map. -/
def kpMapNeed (l : List (TabletType × KeyspacePartition)) : Nat :=
  l.foldr (fun p a => p.2.fuelNeed + 1 + a) 1

/-- Fuel bound for decoding a marshalled SrvKeyspace document. -/
def SrvKeyspace.fuelNeed (sk : SrvKeyspace) : Nat :=
  kpMapNeed sk.Partitions + shardsNeed sk.Shards + ttNeed sk.TabletTypes +
    (sk.ServedFrom.length + 1) + 8

/-- The comparison the sort keeps invariant: x may precede y when y's start
is not less than x's. -/
def shardLe (x y : SrvShard) : Prop := shardLess y x = false

/-! Buffers for the order-insensitivity, unknown-field and frame claims are
represented as sequences of encoded fields: each field is either one of the
object's known fields carrying an in-memory value, or an unrecognized field
carrying an arbitrary wire value of the closed tag set.  The byte image of
such a sequence is a wellformed object body, and each field's semantic
effect on the decode target is its `apply`. -/

/-- A wire value of the closed tag set, as found in an unrecognized field:
the tag determines how `bson.Skip` jumps its body. -/
inductive WireVal where
  | wnull
  | wstr (s : GoStr)
  | wbin (s : GoStr)
  | wobj (body : List Nat)
  | warr (body : List Nat)
deriving DecidableEq, Repr

/-- The wire tag of a wire value. -/
def WireVal.tag : WireVal → Nat
  | wnull => bson.Null
  | wstr _ => bson.StringTag
  | wbin _ => bson.Binary
  | wobj _ => bson.Object
  | warr _ => bson.Array

/-- The encoded body of a wire value: String carries a count of bytes plus
terminator, Binary a count and a subtype byte, composites a length-prefixed
block. -/
def WireVal.body : WireVal → List Nat
  | wnull => []
  | wstr s => lenBytes (s.length + 1) ++ s ++ [0]
  | wbin s => lenBytes s.length ++ 0 :: s
  | wobj b => lenDoc b
  | warr b => lenDoc b

/-- Wellformedness of a wire value: its recorded lengths fit 4 bytes. -/
def WireVal.wf : WireVal → Prop
  | wnull => True
  | wstr s => s.length + 1 < 4294967296
  | wbin s => strOk s
  | wobj b => b.length + 1 < 4294967296
  | warr b => b.length + 1 < 4294967296

instance (v : WireVal) : Decidable v.wf := by
  unfold WireVal.wf
  cases v <;> infer_instance

/-- One field of a SrvShard object body: a known field carrying its value, or
an unrecognized field. -/
inductive ShardField where
  | keyRange (kr : KeyRange)
  | servedTypes (l : List TabletType)
  | tabletTypes (l : List TabletType)
  | unknown (nm : GoStr) (v : WireVal)
deriving DecidableEq, Repr

/-- The field name a ShardField is written under. -/
def ShardField.name : ShardField → GoStr
  | keyRange _ => nmKeyRange
  | servedTypes _ => nmServedTypes
  | tabletTypes _ => nmTabletTypes
  | unknown nm _ => nm

/-- The byte image of a ShardField, as the encoder writes it. -/
def ShardField.bytes : ShardField → List Nat
  | keyRange kr => kr.MarshalBson nmKeyRange
  | servedTypes l => EncodeTabletTypeArray nmServedTypes l
  | tabletTypes l => EncodeTabletTypeArray nmTabletTypes l
  | unknown nm v => v.tag :: nm ++ [0] ++ v.body

/-- The semantic effect of decoding a ShardField into a target: known fields
assign their component, unrecognized ones change nothing. -/
def ShardField.apply (t : SrvShard) : ShardField → SrvShard
  | keyRange kr => { t with KeyRange := kr }
  | servedTypes l => { t with ServedTypes := l }
  | tabletTypes l => { t with TabletTypes := l }
  | unknown _ _ => t

/-- A ShardField is a known field of the record. -/
def ShardField.known : ShardField → Prop
  | keyRange _ => True
  | servedTypes _ => True
  | tabletTypes _ => True
  | unknown _ _ => False

/-- Wellformedness of a ShardField: wellformed payload; an unrecognized
field's name must differ from every known field name and be zero-free. -/
def ShardField.wf : ShardField → Prop
  | keyRange kr => kr.wf
  | servedTypes l => ∀ t ∈ l, strOk t
  | tabletTypes l => ∀ t ∈ l, strOk t
  | unknown nm v => nm ∉ [nmKeyRange, nmServedTypes, nmTabletTypes] ∧
      0 ∉ nm ∧ v.wf

instance (i : ShardField) : Decidable i.wf := by
  unfold ShardField.wf
  cases i <;> infer_instance

instance (i : ShardField) : Decidable i.known := by
  unfold ShardField.known
  cases i <;> infer_instance

/-- Fuel bound for decoding one ShardField. -/
def ShardField.need : ShardField → Nat
  | keyRange _ => krNeed
  | servedTypes l => ttNeed l
  | tabletTypes l => ttNeed l
  | unknown _ _ => 1

/-- Fuel bound for a sequence of ShardFields. -/
def shardFieldsNeed (l : List ShardField) : Nat :=
  l.foldr (fun i a => i.need + 1 + a) 1

/-- The byte image of a sequence of ShardFields. -/
def shardFieldsBytes (l : List ShardField) : List Nat :=
  (l.map ShardField.bytes).flatten

/-- One field of a KeyspacePartition object body. -/
inductive KPField where
  | shards (l : List SrvShard)
  | unknown (nm : GoStr) (v : WireVal)
deriving DecidableEq, Repr

/-- The field name a KPField is written under. -/
def KPField.name : KPField → GoStr
  | shards _ => nmShards
  | unknown nm _ => nm

/-- The byte image of a KPField. -/
def KPField.bytes : KPField → List Nat
  | shards l => EncodeSrvShardArray nmShards l
  | unknown nm v => v.tag :: nm ++ [0] ++ v.body

/-- The semantic effect of decoding a KPField: the shards come back with
version tokens reset, since each decodes into a fresh zero shard. -/
def KPField.apply (t : KeyspacePartition) : KPField → KeyspacePartition
  | shards l => ⟨l.map SrvShard.cleared⟩
  | unknown _ _ => t

/-- A KPField is a known field of the record. -/
def KPField.known : KPField → Prop
  | shards _ => True
  | unknown _ _ => False

/-- Wellformedness of a KPField. -/
def KPField.wf : KPField → Prop
  | shards l => ∀ s ∈ l, s.wf
  | unknown nm v => nm ≠ nmShards ∧ 0 ∉ nm ∧ v.wf

instance (i : KPField) : Decidable i.wf := by
  unfold KPField.wf
  cases i <;> infer_instance

instance (i : KPField) : Decidable i.known := by
  unfold KPField.known
  cases i <;> infer_instance

/-- Fuel bound for decoding one KPField. -/
def KPField.need : KPField → Nat
  | shards l => shardsNeed l
  | unknown _ _ => 1

/-- Fuel bound for a sequence of KPFields. -/
def kpFieldsNeed (l : List KPField) : Nat :=
  l.foldr (fun i a => i.need + 1 + a) 1

/-- The byte image of a sequence of KPFields. -/
def kpFieldsBytes (l : List KPField) : List Nat :=
  (l.map KPField.bytes).flatten

/-- One field of a SrvKeyspace object body. -/
inductive KSField where
  | partitions (m : List (TabletType × KeyspacePartition))
  | shards (l : List SrvShard)
  | tabletTypes (l : List TabletType)
  | shardingColumnName (s : GoStr)
  | shardingColumnType (s : GoStr)
  | servedFrom (m : List (TabletType × GoStr))
  | unknown (nm : GoStr) (v : WireVal)
deriving DecidableEq, Repr

/-- The field name a KSField is written under. -/
def KSField.name : KSField → GoStr
  | partitions _ => nmPartitions
  | shards _ => nmShards
  | tabletTypes _ => nmTabletTypes
  | shardingColumnName _ => nmShardingColumnName
  | shardingColumnType _ => nmShardingColumnType
  | servedFrom _ => nmServedFrom
  | unknown nm _ => nm

/-- The byte image of a KSField. -/
def KSField.bytes : KSField → List Nat
  | partitions m => EncodeKeyspacePartitionMap nmPartitions m
  | shards l => EncodeSrvShardArray nmShards l
  | tabletTypes l => EncodeTabletTypeArray nmTabletTypes l
  | shardingColumnName s => encodeString nmShardingColumnName s
  | shardingColumnType s => encodeString nmShardingColumnType s
  | servedFrom m => EncodeServedFrom nmServedFrom m
  | unknown nm v => v.tag :: nm ++ [0] ++ v.body

/-- The semantic effect of decoding a KSField into a target; nested records
come back with version tokens reset. -/
def KSField.apply (t : SrvKeyspace) : KSField → SrvKeyspace
  | partitions m => { t with Partitions := m.map fun p => (p.1, p.2.cleared) }
  | shards l => { t with Shards := l.map SrvShard.cleared }
  | tabletTypes l => { t with TabletTypes := l }
  | shardingColumnName s => { t with ShardingColumnName := s }
  | shardingColumnType s => { t with ShardingColumnType := s }
  | servedFrom m => { t with ServedFrom := m }
  | unknown _ _ => t

/-- A KSField is a known field of the record. -/
def KSField.known : KSField → Prop
  | partitions _ => True
  | shards _ => True
  | tabletTypes _ => True
  | shardingColumnName _ => True
  | shardingColumnType _ => True
  | servedFrom _ => True
  | unknown _ _ => False

/-- Wellformedness of a KSField. -/
def KSField.wf : KSField → Prop
  | partitions m => (∀ p ∈ m, 0 ∉ p.1 ∧ p.2.wf) ∧ (m.map Prod.fst).Nodup
  | shards l => ∀ s ∈ l, s.wf
  | tabletTypes l => ∀ t ∈ l, strOk t
  | shardingColumnName s => strOk s
  | shardingColumnType s => strOk s
  | servedFrom m => (∀ p ∈ m, 0 ∉ p.1 ∧ strOk p.2) ∧ (m.map Prod.fst).Nodup
  | unknown nm v => nm ∉ [nmPartitions, nmShards, nmTabletTypes,
      nmShardingColumnName, nmShardingColumnType, nmServedFrom] ∧
      0 ∉ nm ∧ v.wf

instance (i : KSField) : Decidable i.wf := by
  unfold KSField.wf
  cases i <;> infer_instance

instance (i : KSField) : Decidable i.known := by
  unfold KSField.known
  cases i <;> infer_instance

/-- Fuel bound for decoding one KSField. -/
def KSField.need : KSField → Nat
  | partitions m => kpMapNeed m
  | shards l => shardsNeed l
  | tabletTypes l => ttNeed l
  | shardingColumnName _ => 1
  | shardingColumnType _ => 1
  | servedFrom m => m.length + 1
  | unknown _ _ => 1

/-- Fuel bound for a sequence of KSFields. -/
def ksFieldsNeed (l : List KSField) : Nat :=
  l.foldr (fun i a => i.need + 1 + a) 1

/-- The byte image of a sequence of KSFields. -/
def ksFieldsBytes (l : List KSField) : List Nat :=
  (l.map KSField.bytes).flatten

/-! Wire-primitive lemmas: each reader consumes exactly the bytes the
corresponding writer produced. -/

theorem next4_lenBytes (n : Nat) (r : List Nat) :
    next4 (lenBytes n ++ r) = .ok ((), r) := rfl

theorem readLen32_lenBytes (n : Nat) (r : List Nat) (h : n < 4294967296) :
    readLen32 (lenBytes n ++ r) = .ok (n, r) := by
  simp only [readLen32, lenBytes, List.cons_append, List.nil_append]
  congr 1
  refine Prod.ext ?_ rfl
  show n % 256 + 256 * (n / 256 % 256) + 65536 * (n / 65536 % 256) +
      16777216 * (n / 16777216 % 256) = n
  omega

theorem readCString_encode (s : GoStr) (r : List Nat) (h : 0 ∉ s) :
    readCString (s ++ 0 :: r) = .ok (s, r) := by
  induction s with
  | nil => rfl
  | cons b t ih =>
    have hb : b ≠ 0 := fun hb => h (hb ▸ List.mem_cons_self b t)
    have ht : 0 ∉ t := fun hm => h (List.mem_cons_of_mem b hm)
    simp [readCString, hb, ih ht]

theorem skipIndex_encode (s : GoStr) (r : List Nat) (h : 0 ∉ s) :
    skipIndex (s ++ 0 :: r) = .ok ((), r) := by
  simp [skipIndex, readCString_encode s r h]

theorem dropN_exact (s r : List Nat) : dropN s.length (s ++ r) = .ok ((), r) := by
  simp [dropN]

theorem takeN_exact (s r : List Nat) : takeN s.length (s ++ r) = .ok (s, r) := by
  simp [takeN]

theorem decodeString_binary (s : GoStr) (r : List Nat) (h : strOk s) :
    decodeString bson.Binary (lenBytes s.length ++ 0 :: (s ++ r)) =
      .ok (s, r) := by
  have h1 : readLen32 (lenBytes s.length ++ 0 :: (s ++ r)) =
      .ok (s.length, 0 :: (s ++ r)) := readLen32_lenBytes _ _ h
  simp [decodeString, bson.Binary, bson.StringTag, h1, nextByte, takeN_exact]

/-- The wire shape of an encoded string field: the Binary tag, the name as a
C string, then a body that the string decoder consumes exactly. -/
theorem encodeString_field (nm s : GoStr) (h : strOk s) :
    encodeString nm s = bson.Binary :: nm ++ [0] ++ (lenBytes s.length ++ 0 :: s)
      ∧ ∀ r, decodeString bson.Binary ((lenBytes s.length ++ 0 :: s) ++ r) =
          .ok (s, r) := by
  constructor
  · simp [encodeString, encodePrefix]
  · intro r
    have := decodeString_binary s r h
    simpa [List.append_assoc] using this

theorem binary_ne_eoo : bson.Binary ≠ bson.EOO := by decide

theorem object_ne_eoo : bson.Object ≠ bson.EOO := by decide

theorem array_ne_eoo : bson.Array ≠ bson.EOO := by decide

theorem null_ne_eoo : bson.Null ≠ bson.EOO := by decide

theorem itoaAux_ne_zero :
    ∀ n acc, (∀ x ∈ acc, x ≠ 0) → ∀ x ∈ itoaAux n acc, x ≠ 0 := by
  intro n
  induction n using Nat.strong_induction_on with
  | _ n ih =>
    match n with
    | 0 =>
      intro acc hacc
      simpa [itoaAux] using hacc
    | m + 1 =>
      intro acc hacc
      rw [itoaAux]
      apply ih ((m + 1) / 10) (Nat.div_lt_self (Nat.succ_pos m) (by omega))
      intro x hx
      rcases List.mem_cons.mp hx with h | h
      · omega
      · exact hacc x h

theorem itoa_ne_zero (i : Nat) : 0 ∉ itoa i := by
  intro hmem
  cases i with
  | zero => simp [itoa] at hmem
  | succ m => exact itoaAux_ne_zero (m + 1) [] (by simp) 0 hmem rfl

/-- The element loop of the TabletType array decoder consumes exactly the
indexed binary-string elements the encoder wrote, in order. -/
theorem tabletTypeElems_encode (l : List (Nat × TabletType)) :
    ∀ fuel acc r, (∀ p ∈ l, strOk p.2) → l.length + 1 ≤ fuel →
    tabletTypeElems fuel acc
        ((l.map fun p => encodeString (itoa p.1) p.2).flatten ++ 0 :: r) =
      .ok (acc ++ l.map Prod.snd, r) := by
  induction l with
  | nil =>
    intro fuel acc r _ hf
    obtain ⟨f, rfl⟩ : ∃ f, fuel = f + 1 := ⟨fuel - 1, by omega⟩
    simp [tabletTypeElems, nextByte, bson.EOO]
  | cons p t ih =>
    intro fuel acc r hwf hf
    obtain ⟨f, rfl⟩ : ∃ f, fuel = f + 1 := ⟨fuel - 1, by omega⟩
    have hs : strOk p.2 := hwf p (List.mem_cons_self p t)
    rw [List.map_cons, List.flatten_cons, (encodeString_field (itoa p.1) p.2 hs).1]
    rw [tabletTypeElems]
    simp only [List.cons_append, List.append_assoc, List.singleton_append,
      nextByte]
    rw [if_neg binary_ne_eoo, if_neg (by simp),
      skipIndex_encode _ _ (itoa_ne_zero p.1)]
    simp only [List.nil_append, decodeString_binary _ _ hs]
    rw [ih f (acc ++ [p.2]) r (fun q hq => hwf q (List.mem_cons_of_mem p hq))
      (by simp at hf ⊢; omega)]
    simp

/-- The field loop of the KeyRange decoder consumes exactly the Start and End
fields the encoder wrote and overwrites both components of the target. -/
theorem keyRangeFields_encode (kr0 kr : KeyRange) (r : List Nat) (fuel : Nat)
    (hwf : kr.wf) (hf : krNeed ≤ fuel) :
    keyRangeFields fuel kr0 (kr.bodyBson ++ 0 :: r) = .ok (kr, r) := by
  obtain ⟨hS, hE⟩ := hwf
  obtain ⟨f, rfl⟩ : ∃ f, fuel = f + 1 + 1 + 1 := ⟨fuel - 3, by unfold krNeed at hf; omega⟩
  obtain ⟨ks, ke⟩ := kr
  rw [KeyRange.bodyBson, (encodeString_field nmStart ks hS).1,
    (encodeString_field nmEnd ke hE).1]
  rw [keyRangeFields]
  simp only [List.cons_append, List.append_assoc, List.singleton_append,
    List.nil_append, nextByte]
  rw [if_neg binary_ne_eoo, readCString_encode _ _ (by decide)]
  simp only [if_true]
  simp only [List.nil_append, decodeString_binary _ _ hS]
  rw [keyRangeFields]
  simp only [List.cons_append, List.append_assoc, List.singleton_append,
    List.nil_append, nextByte]
  rw [if_neg binary_ne_eoo, readCString_encode _ _ (by decide)]
  simp only [if_true]
  rw [if_neg (by decide)]
  simp only [List.nil_append, decodeString_binary _ _ hE]
  rw [keyRangeFields]
  simp [nextByte, bson.EOO]

/-- Unmarshalling the document of a marshalled KeyRange into any target
yields that KeyRange and consumes exactly the document. -/
theorem keyRange_unmarshal_doc (t kr : KeyRange) (r : List Nat) (fuel : Nat)
    (hwf : kr.wf) (hf : krNeed ≤ fuel) :
    KeyRange.UnmarshalBson fuel t bson.Object (lenDoc kr.bodyBson ++ r) =
      .ok (kr, r) := by
  unfold KeyRange.UnmarshalBson verifyObject
  rw [if_pos rfl]
  simp only [lenDoc, List.append_assoc, List.singleton_append, next4_lenBytes]
  exact keyRangeFields_encode t kr r fuel hwf hf

/-- The wire shape of an encoded TabletType array field: a non-end tag, the
name as a C string, then a body that the array decoder consumes exactly,
returning the original sequence. -/
theorem encodeTTArray_field (nm : GoStr) (vals : List TabletType)
    (hwf : ∀ t ∈ vals, strOk t) :
    ∃ tag rest, EncodeTabletTypeArray nm vals = tag :: (nm ++ 0 :: rest) ∧
      tag ≠ bson.EOO ∧
      ∀ fuel r, ttNeed vals ≤ fuel →
        DecodeTabletTypeArray fuel tag (rest ++ r) = .ok (vals, r) := by
  match vals with
  | [] =>
    refine ⟨bson.Null, [], ?_, null_ne_eoo, ?_⟩
    · simp [EncodeTabletTypeArray, encodePrefix]
    · intro fuel r _
      simp [DecodeTabletTypeArray, bson.Null, bson.Array]
  | v :: vs =>
    refine ⟨bson.Array,
      lenDoc ((v :: vs).enum.map fun p => encodeString (itoa p.1) p.2).flatten,
      ?_, array_ne_eoo, ?_⟩
    · simp [EncodeTabletTypeArray, encodePrefix]
    · intro fuel r hfuel
      unfold DecodeTabletTypeArray
      rw [if_pos rfl]
      simp only [lenDoc, List.append_assoc, List.singleton_append,
        next4_lenBytes]
      have := tabletTypeElems_encode (v :: vs).enum fuel [] r
        (fun p hp => hwf p.2 (List.snd_mem_of_mem_enum hp))
        (by simpa [ttNeed, List.enum_length] using hfuel)
      simpa [List.enum_map_snd] using this

/-- The field loop of the SrvShard decoder consumes exactly the three fields
the encoder wrote, overwriting KeyRange, ServedTypes and TabletTypes of the
target and leaving its version token alone. -/
theorem srvShardFields_encode (t ss : SrvShard) (r : List Nat) (fuel : Nat)
    (hwf : ss.wf) (hf : ss.fuelNeed ≤ fuel) :
    srvShardFields fuel t (ss.bodyBson ++ 0 :: r) =
      .ok ({ ss with version := t.version }, r) := by
  obtain ⟨hkr, hst, htt⟩ := hwf
  obtain ⟨f, rfl⟩ : ∃ f, fuel = f + 1 + 1 + 1 + 1 :=
    ⟨fuel - 4, by unfold SrvShard.fuelNeed krNeed ttNeed at hf; omega⟩
  obtain ⟨tag1, rest1, hshape1, htag1, hdec1⟩ :=
    encodeTTArray_field nmServedTypes ss.ServedTypes hst
  obtain ⟨tag2, rest2, hshape2, htag2, hdec2⟩ :=
    encodeTTArray_field nmTabletTypes ss.TabletTypes htt
  rw [SrvShard.bodyBson, hshape1, hshape2,
    show ss.KeyRange.MarshalBson nmKeyRange =
      bson.Object :: (nmKeyRange ++ 0 :: lenDoc ss.KeyRange.bodyBson) from by
        simp [KeyRange.MarshalBson, encodePrefix]]
  rw [srvShardFields]
  simp only [List.cons_append, List.append_assoc, List.singleton_append,
    List.nil_append, nextByte]
  rw [if_neg object_ne_eoo, readCString_encode _ _ (by decide)]
  simp only [if_true]
  rw [keyRange_unmarshal_doc t.KeyRange ss.KeyRange _ (f + 1 + 1 + 1) hkr
    (by unfold krNeed; unfold SrvShard.fuelNeed krNeed ttNeed at hf; omega)]
  simp only []
  rw [srvShardFields]
  simp only [List.cons_append, List.append_assoc, List.singleton_append,
    List.nil_append, nextByte]
  rw [if_neg htag1, readCString_encode _ _ (by decide)]
  simp only [if_true]
  rw [if_neg (by decide)]
  rw [hdec1 (f + 1 + 1) _
    (by unfold ttNeed; unfold SrvShard.fuelNeed krNeed ttNeed at hf; omega)]
  simp only []
  rw [srvShardFields]
  simp only [List.cons_append, List.append_assoc, List.singleton_append,
    List.nil_append, nextByte]
  rw [if_neg htag2, readCString_encode _ _ (by decide)]
  simp only [if_true]
  rw [if_neg (by decide), if_neg (by decide)]
  rw [hdec2 (f + 1) _
    (by unfold ttNeed; unfold SrvShard.fuelNeed krNeed ttNeed at hf; omega)]
  simp only []
  rw [srvShardFields]
  simp [nextByte, bson.EOO]

/-- Unmarshalling the document of a marshalled SrvShard into any target
yields the original shard with the target's version token, consuming exactly
the document. -/
theorem srvShard_unmarshal_doc (t ss : SrvShard) (r : List Nat) (fuel : Nat)
    (hwf : ss.wf) (hf : ss.fuelNeed ≤ fuel) :
    SrvShard.UnmarshalBson fuel t bson.Object (lenDoc ss.bodyBson ++ r) =
      .ok ({ ss with version := t.version }, r) := by
  unfold SrvShard.UnmarshalBson verifyObject
  rw [if_pos rfl]
  simp only [lenDoc, List.append_assoc, List.singleton_append, next4_lenBytes]
  exact srvShardFields_encode t ss r fuel hwf hf

theorem mapInsert_append {α : Type} (k : GoStr) (v : α)
    (acc : List (GoStr × α)) (h : k ∉ acc.map Prod.fst) :
    mapInsert k v acc = acc ++ [(k, v)] := by
  induction acc with
  | nil => rfl
  | cons p t ih =>
    simp only [List.map_cons, List.mem_cons] at h
    push_neg at h
    simp [mapInsert, Ne.symm h.1, ih h.2]

/-- The element loop of the SrvShard array decoder consumes exactly the
indexed shard objects the encoder wrote, decoding each into a fresh zero
shard, so versions come back zero. -/
theorem srvShardElems_encode (l : List (Nat × SrvShard)) :
    ∀ fuel acc r, (∀ p ∈ l, p.2.wf) →
      shardsNeed (l.map Prod.snd) ≤ fuel →
    srvShardElems fuel acc
        ((l.map fun p => p.2.MarshalBson (itoa p.1)).flatten ++ 0 :: r) =
      .ok (acc ++ l.map fun p => p.2.cleared, r) := by
  induction l with
  | nil =>
    intro fuel acc r _ hf
    obtain ⟨f, rfl⟩ : ∃ f, fuel = f + 1 :=
      ⟨fuel - 1, by simp [shardsNeed] at hf; omega⟩
    simp [srvShardElems, nextByte, bson.EOO]
  | cons p t ih =>
    intro fuel acc r hwf hf
    simp only [List.map_cons, shardsNeed, List.foldr_cons] at hf
    obtain ⟨f, rfl⟩ : ∃ f, fuel = f + 1 := ⟨fuel - 1, by omega⟩
    have hw : p.2.wf := hwf p (List.mem_cons_self p t)
    rw [List.map_cons, List.flatten_cons,
      show p.2.MarshalBson (itoa p.1) =
        bson.Object :: (itoa p.1 ++ 0 :: lenDoc p.2.bodyBson) from by
          simp [SrvShard.MarshalBson, encodePrefix]]
    rw [srvShardElems]
    simp only [List.cons_append, List.append_assoc, List.singleton_append,
      List.nil_append, nextByte]
    rw [if_neg object_ne_eoo, if_neg (by simp),
      skipIndex_encode _ _ (itoa_ne_zero p.1)]
    simp only [srvShard_unmarshal_doc SrvShard.zero p.2 _ f hw (by omega)]
    rw [ih f _ r (fun q hq => hwf q (List.mem_cons_of_mem p hq))
      (by simp only [shardsNeed]; omega)]
    simp [SrvShard.zero, SrvShard.cleared]

/-- The wire shape of an encoded SrvShard array field: a non-end tag, the
name as a C string, then a body that the array decoder consumes exactly,
yielding the original shards with version tokens reset. -/
theorem encodeSSArray_field (nm : GoStr) (vals : List SrvShard)
    (hwf : ∀ s ∈ vals, s.wf) :
    ∃ tag rest, EncodeSrvShardArray nm vals = tag :: (nm ++ 0 :: rest) ∧
      tag ≠ bson.EOO ∧
      ∀ fuel r, shardsNeed vals ≤ fuel →
        DecodeSrvShardArray fuel tag (rest ++ r) =
          .ok (vals.map SrvShard.cleared, r) := by
  match vals with
  | [] =>
    refine ⟨bson.Null, [], ?_, null_ne_eoo, ?_⟩
    · simp [EncodeSrvShardArray, encodePrefix]
    · intro fuel r _
      simp [DecodeSrvShardArray, bson.Null, bson.Array]
  | v :: vs =>
    refine ⟨bson.Array,
      lenDoc ((v :: vs).enum.map fun p => p.2.MarshalBson (itoa p.1)).flatten,
      ?_, array_ne_eoo, ?_⟩
    · simp [EncodeSrvShardArray, encodePrefix]
    · intro fuel r hfuel
      unfold DecodeSrvShardArray
      rw [if_pos rfl]
      simp only [lenDoc, List.append_assoc, List.singleton_append,
        next4_lenBytes]
      have := srvShardElems_encode (v :: vs).enum fuel [] r
        (fun p hp => hwf p.2 (List.snd_mem_of_mem_enum hp))
        (by simpa [List.enum_map_snd] using hfuel)
      have hmap : ((v :: vs).enum.map fun p => p.2.cleared) =
          (v :: vs).map SrvShard.cleared := by
        rw [show (fun p : Nat × SrvShard => p.2.cleared) =
          SrvShard.cleared ∘ Prod.snd from rfl, ← List.map_map,
          List.enum_map_snd]
      rw [hmap] at this
      simpa using this

/-- The field loop of the KeyspacePartition decoder consumes exactly the
single Shards field the encoder wrote. -/
theorem kpFields_encode (t kp : KeyspacePartition) (r : List Nat) (fuel : Nat)
    (hwf : kp.wf) (hf : kp.fuelNeed ≤ fuel) :
    kpFields fuel t (kp.bodyBson ++ 0 :: r) = .ok (kp.cleared, r) := by
  obtain ⟨f, rfl⟩ : ∃ f, fuel = f + 1 + 1 :=
    ⟨fuel - 2, by unfold KeyspacePartition.fuelNeed at hf; omega⟩
  obtain ⟨tag1, rest1, hshape1, htag1, hdec1⟩ :=
    encodeSSArray_field nmShards kp.Shards hwf
  rw [KeyspacePartition.bodyBson, hshape1]
  rw [kpFields]
  simp only [List.cons_append, List.append_assoc, List.singleton_append,
    List.nil_append, nextByte]
  rw [if_neg htag1, readCString_encode _ _ (by decide)]
  simp only [if_true]
  rw [hdec1 (f + 1) _
    (by unfold KeyspacePartition.fuelNeed at hf; omega)]
  simp only []
  rw [kpFields]
  simp [nextByte, bson.EOO, KeyspacePartition.cleared]

/-- Unmarshalling the document of a marshalled KeyspacePartition into any
target yields the original partition with nested version tokens reset. -/
theorem kp_unmarshal_doc (t kp : KeyspacePartition) (r : List Nat)
    (fuel : Nat) (hwf : kp.wf) (hf : kp.fuelNeed ≤ fuel) :
    KeyspacePartition.UnmarshalBson fuel t bson.Object
        (lenDoc kp.bodyBson ++ r) = .ok (kp.cleared, r) := by
  unfold KeyspacePartition.UnmarshalBson verifyObject
  rw [if_pos rfl]
  simp only [lenDoc, List.append_assoc, List.singleton_append, next4_lenBytes]
  exact kpFields_encode t kp r fuel hwf hf

/-- The entry loop of the KeyspacePartition map decoder consumes exactly the
entries the encoder wrote, keyed by the literal field names, each decoded
into a fresh zero partition. -/
theorem kpMapElems_encode (l : List (GoStr × KeyspacePartition)) :
    ∀ fuel acc r, (∀ p ∈ l, 0 ∉ p.1 ∧ p.2.wf) →
      (l.map Prod.fst).Nodup →
      (∀ k ∈ l.map Prod.fst, k ∉ acc.map Prod.fst) →
      kpMapNeed l ≤ fuel →
    kpMapElems fuel acc ((l.map fun p => p.2.MarshalBson p.1).flatten ++ 0 :: r)
      = .ok (acc ++ l.map fun p => (p.1, p.2.cleared), r) := by
  induction l with
  | nil =>
    intro fuel acc r _ _ _ hf
    obtain ⟨f, rfl⟩ : ∃ f, fuel = f + 1 :=
      ⟨fuel - 1, by simp [kpMapNeed] at hf; omega⟩
    simp [kpMapElems, nextByte, bson.EOO]
  | cons p t ih =>
    intro fuel acc r hwf hnd hdisj hf
    simp only [kpMapNeed, List.foldr_cons] at hf
    obtain ⟨f, rfl⟩ : ∃ f, fuel = f + 1 := ⟨fuel - 1, by omega⟩
    obtain ⟨h0, hw⟩ := hwf p (List.mem_cons_self p t)
    rw [List.map_cons, List.flatten_cons,
      show p.2.MarshalBson p.1 =
        bson.Object :: (p.1 ++ 0 :: lenDoc p.2.bodyBson) from by
          simp [KeyspacePartition.MarshalBson, encodePrefix]]
    rw [kpMapElems]
    simp only [List.cons_append, List.append_assoc, List.singleton_append,
      List.nil_append, nextByte]
    rw [if_neg object_ne_eoo, if_neg (by simp), readCString_encode _ _ h0]
    simp only [kp_unmarshal_doc KeyspacePartition.zero p.2 _ f hw (by omega)]
    rw [mapInsert_append p.1 _ acc
      (hdisj p.1 (by simp))]
    rw [ih f _ r (fun q hq => hwf q (List.mem_cons_of_mem p hq))
      (by simpa using hnd.of_cons)
      ?_ (by simp only [kpMapNeed]; omega)]
    · simp
    · intro k hk
      simp only [List.map_append, List.map_cons, List.map_nil]
      rw [List.mem_append]
      push_neg
      refine ⟨hdisj k (by simp [hk]), ?_⟩
      simp only [List.map_cons] at hnd
      intro hmem
      simp at hmem
      rcases List.mem_map.mp hk with ⟨q, hq, rfl⟩
      exact (List.nodup_cons.mp hnd).1 (hmem ▸ List.mem_map_of_mem Prod.fst hq)

/-- The wire shape of an encoded KeyspacePartition map field: a non-end tag,
the name as a C string, then a body that the map decoder consumes exactly,
with the literal keys preserved and nested version tokens reset. -/
theorem encodeKPMap_field (nm : GoStr) (vals : List (TabletType × KeyspacePartition))
    (hwf : ∀ p ∈ vals, 0 ∉ p.1 ∧ p.2.wf)
    (hnd : (vals.map Prod.fst).Nodup) :
    ∃ tag rest, EncodeKeyspacePartitionMap nm vals = tag :: (nm ++ 0 :: rest) ∧
      tag ≠ bson.EOO ∧
      ∀ fuel r, kpMapNeed vals ≤ fuel →
        DecodeKeyspacePartitionMap fuel tag (rest ++ r) =
          .ok (vals.map fun p => (p.1, p.2.cleared), r) := by
  match vals with
  | [] =>
    refine ⟨bson.Null, [], ?_, null_ne_eoo, ?_⟩
    · simp [EncodeKeyspacePartitionMap, encodePrefix]
    · intro fuel r _
      simp [DecodeKeyspacePartitionMap, bson.Null, bson.Object]
  | v :: vs =>
    refine ⟨bson.Object,
      lenDoc ((v :: vs).map fun p => p.2.MarshalBson p.1).flatten,
      ?_, object_ne_eoo, ?_⟩
    · simp [EncodeKeyspacePartitionMap, encodePrefix]
    · intro fuel r hfuel
      unfold DecodeKeyspacePartitionMap
      rw [if_pos rfl]
      simp only [lenDoc, List.append_assoc, List.singleton_append,
        next4_lenBytes]
      simpa using kpMapElems_encode (v :: vs) fuel [] r hwf hnd (by simp) hfuel

/-- The entry loop of the ServedFrom decoder consumes exactly the
binary-string entries the encoder wrote, keyed by the literal field names. -/
theorem servedFromElems_encode (l : List (GoStr × GoStr)) :
    ∀ fuel acc r, (∀ p ∈ l, 0 ∉ p.1 ∧ strOk p.2) →
      (l.map Prod.fst).Nodup →
      (∀ k ∈ l.map Prod.fst, k ∉ acc.map Prod.fst) →
      l.length + 1 ≤ fuel →
    servedFromElems fuel acc
        ((l.map fun p => encodeString p.1 p.2).flatten ++ 0 :: r) =
      .ok (acc ++ l, r) := by
  induction l with
  | nil =>
    intro fuel acc r _ _ _ hf
    obtain ⟨f, rfl⟩ : ∃ f, fuel = f + 1 := ⟨fuel - 1, by omega⟩
    simp [servedFromElems, nextByte, bson.EOO]
  | cons p t ih =>
    intro fuel acc r hwf hnd hdisj hf
    obtain ⟨f, rfl⟩ : ∃ f, fuel = f + 1 := ⟨fuel - 1, by omega⟩
    obtain ⟨h0, hs⟩ := hwf p (List.mem_cons_self p t)
    rw [List.map_cons, List.flatten_cons, (encodeString_field p.1 p.2 hs).1]
    rw [servedFromElems]
    simp only [List.cons_append, List.append_assoc, List.singleton_append,
      List.nil_append, nextByte]
    rw [if_neg binary_ne_eoo, readCString_encode _ _ h0]
    simp only [or_true, if_true]
    simp only [List.nil_append, decodeString_binary _ _ hs]
    rw [mapInsert_append p.1 _ acc (hdisj p.1 (by simp))]
    rw [ih f _ r (fun q hq => hwf q (List.mem_cons_of_mem p hq))
      (by simpa using hnd.of_cons)
      ?_ (by simp at hf ⊢; omega)]
    · simp
    · intro k hk
      simp only [List.map_append, List.map_cons, List.map_nil]
      rw [List.mem_append]
      push_neg
      refine ⟨hdisj k (by simp [hk]), ?_⟩
      simp only [List.map_cons] at hnd
      intro hmem
      simp at hmem
      rcases List.mem_map.mp hk with ⟨q, hq, rfl⟩
      exact (List.nodup_cons.mp hnd).1 (hmem ▸ List.mem_map_of_mem Prod.fst hq)

/-- The wire shape of an encoded ServedFrom field: always the Object tag —
with no emptiness special case — the name as a C string, then a body that
the ServedFrom decoder consumes exactly, preserving all entries. -/
theorem encodeServedFrom_field (nm : GoStr) (l : List (TabletType × GoStr))
    (hwf : ∀ p ∈ l, 0 ∉ p.1 ∧ strOk p.2)
    (hnd : (l.map Prod.fst).Nodup) :
    EncodeServedFrom nm l = bson.Object ::
        (nm ++ 0 :: lenDoc ((l.map fun p => encodeString p.1 p.2).flatten)) ∧
      ∀ fuel r, l.length + 1 ≤ fuel →
        DecodeServedFrom fuel bson.Object
            (lenDoc ((l.map fun p => encodeString p.1 p.2).flatten) ++ r) =
          .ok (l, r) := by
  constructor
  · simp [EncodeServedFrom, encodePrefix]
  · intro fuel r hfuel
    unfold DecodeServedFrom
    rw [if_pos rfl]
    simp only [lenDoc, List.append_assoc, List.singleton_append,
      next4_lenBytes]
    simpa using servedFromElems_encode l fuel [] r hwf hnd (by simp) hfuel

/-- The field loop of the SrvKeyspace decoder consumes exactly the six fields
the encoder wrote, overwriting every serialized field of the target and
leaving its version token alone. -/
theorem srvKeyspaceFields_encode (t sk : SrvKeyspace) (r : List Nat)
    (fuel : Nat) (hwf : sk.wf) (hf : sk.fuelNeed ≤ fuel) :
    srvKeyspaceFields fuel t (sk.bodyBson ++ 0 :: r) =
      .ok ({ sk.cleared with version := t.version }, r) := by
  obtain ⟨hpart, hpnd, hsh, htt, hscn, hsct, hsf, hsfnd⟩ := hwf
  obtain ⟨f, rfl⟩ : ∃ f, fuel = f + 1 + 1 + 1 + 1 + 1 + 1 + 1 :=
    ⟨fuel - 7, by unfold SrvKeyspace.fuelNeed at hf; omega⟩
  obtain ⟨tagP, restP, hshapeP, htagP, hdecP⟩ :=
    encodeKPMap_field nmPartitions sk.Partitions hpart hpnd
  obtain ⟨tagS, restS, hshapeS, htagS, hdecS⟩ :=
    encodeSSArray_field nmShards sk.Shards hsh
  obtain ⟨tagT, restT, hshapeT, htagT, hdecT⟩ :=
    encodeTTArray_field nmTabletTypes sk.TabletTypes htt
  obtain ⟨hshapeF, hdecF⟩ :=
    encodeServedFrom_field nmServedFrom sk.ServedFrom hsf hsfnd
  rw [SrvKeyspace.bodyBson, hshapeP, hshapeS, hshapeT, hshapeF,
    (encodeString_field nmShardingColumnName sk.ShardingColumnName hscn).1,
    (encodeString_field nmShardingColumnType sk.ShardingColumnType hsct).1]
  rw [srvKeyspaceFields]
  simp only [List.cons_append, List.append_assoc, List.singleton_append,
    List.nil_append, nextByte]
  rw [if_neg htagP, readCString_encode _ _ (by decide)]
  simp only [if_true]
  rw [hdecP (f + 1 + 1 + 1 + 1 + 1 + 1) _
    (by unfold SrvKeyspace.fuelNeed at hf; omega)]
  simp only []
  rw [srvKeyspaceFields]
  simp only [List.cons_append, List.append_assoc, List.singleton_append,
    List.nil_append, nextByte]
  rw [if_neg htagS, readCString_encode _ _ (by decide)]
  simp only [if_true]
  rw [if_neg (by decide)]
  rw [hdecS (f + 1 + 1 + 1 + 1 + 1) _
    (by unfold SrvKeyspace.fuelNeed at hf; omega)]
  simp only []
  rw [srvKeyspaceFields]
  simp only [List.cons_append, List.append_assoc, List.singleton_append,
    List.nil_append, nextByte]
  rw [if_neg htagT, readCString_encode _ _ (by decide)]
  simp only [if_true]
  rw [if_neg (by decide), if_neg (by decide)]
  rw [hdecT (f + 1 + 1 + 1 + 1) _
    (by unfold SrvKeyspace.fuelNeed at hf; omega)]
  simp only []
  rw [srvKeyspaceFields]
  simp only [List.cons_append, List.append_assoc, List.singleton_append,
    List.nil_append, nextByte]
  rw [if_neg binary_ne_eoo, readCString_encode _ _ (by decide)]
  simp only [if_true]
  rw [if_neg (by decide), if_neg (by decide), if_neg (by decide)]
  simp only [List.nil_append, decodeString_binary _ _ hscn]
  rw [srvKeyspaceFields]
  simp only [List.cons_append, List.append_assoc, List.singleton_append,
    List.nil_append, nextByte]
  rw [if_neg binary_ne_eoo, readCString_encode _ _ (by decide)]
  simp only [if_true]
  rw [if_neg (by decide), if_neg (by decide), if_neg (by decide),
    if_neg (by decide)]
  simp only [List.nil_append, decodeString_binary _ _ hsct]
  rw [srvKeyspaceFields]
  simp only [List.cons_append, List.append_assoc, List.singleton_append,
    List.nil_append, nextByte]
  rw [if_neg object_ne_eoo, readCString_encode _ _ (by decide)]
  simp only [if_true]
  rw [if_neg (by decide), if_neg (by decide), if_neg (by decide),
    if_neg (by decide), if_neg (by decide)]
  rw [hdecF (f + 1) _ (by unfold SrvKeyspace.fuelNeed at hf; omega)]
  simp only []
  rw [srvKeyspaceFields]
  simp [nextByte, bson.EOO, SrvKeyspace.cleared]

/-- Unmarshalling the document of a marshalled SrvKeyspace into any target
yields the original record with all version tokens reset to the target's own
at top level and zero in nested shards, consuming exactly the document. -/
theorem srvKeyspace_unmarshal_doc (t sk : SrvKeyspace) (r : List Nat)
    (fuel : Nat) (hwf : sk.wf) (hf : sk.fuelNeed ≤ fuel) :
    SrvKeyspace.UnmarshalBson fuel t bson.Object (lenDoc sk.bodyBson ++ r) =
      .ok ({ sk.cleared with version := t.version }, r) := by
  unfold SrvKeyspace.UnmarshalBson verifyObject
  rw [if_pos rfl]
  simp only [lenDoc, List.append_assoc, List.singleton_append, next4_lenBytes]
  exact srvKeyspaceFields_encode t sk r fuel hwf hf

/-- Dropping the tag byte and the field-name C string from a marshalled
SrvShard leaves exactly its length-prefixed document. -/
theorem srvShard_marshal_drop (ss : SrvShard) (key : GoStr) :
    (ss.MarshalBson key).drop (key.length + 2) = lenDoc ss.bodyBson := by
  rw [SrvShard.MarshalBson,
    show key.length + 2 = (encodePrefix bson.Object key).length from by
      simp [encodePrefix],
    List.drop_left]

theorem kp_marshal_drop (kp : KeyspacePartition) (key : GoStr) :
    (kp.MarshalBson key).drop (key.length + 2) = lenDoc kp.bodyBson := by
  rw [KeyspacePartition.MarshalBson,
    show key.length + 2 = (encodePrefix bson.Object key).length from by
      simp [encodePrefix],
    List.drop_left]

theorem srvKeyspace_marshal_drop (sk : SrvKeyspace) (key : GoStr) :
    (sk.MarshalBson key).drop (key.length + 2) = lenDoc sk.bodyBson := by
  rw [SrvKeyspace.MarshalBson,
    show key.length + 2 = (encodePrefix bson.Object key).length from by
      simp [encodePrefix],
    List.drop_left]

/-- C1.  Round-trip for every entity type: unmarshalling the bytes produced
by MarshalBson (after the dispatching reader has consumed the leading Object
tag and field name, i.e. the first `key.length + 2` bytes) yields a value
whose every serialized field equals the original's, for arbitrary targets and
for collections of any size, including empty and absent ones and an empty
ServedFrom map.  The unexported version tokens are by design not part of the
wire form (§3): the top-level token comes back as the target's own and nested
tokens as the fresh zero allocated by the element decoders, which is what
`cleared` records. -/
theorem c1_roundtrip :
    (∀ (ss t : SrvShard) (key : GoStr) (r : List Nat) (fuel : Nat),
      ss.wf → ss.fuelNeed ≤ fuel →
      SrvShard.UnmarshalBson fuel t bson.Object
          ((ss.MarshalBson key).drop (key.length + 2) ++ r) =
        .ok ({ ss with version := t.version }, r)) ∧
    (∀ (kp t : KeyspacePartition) (key : GoStr) (r : List Nat) (fuel : Nat),
      kp.wf → kp.fuelNeed ≤ fuel →
      KeyspacePartition.UnmarshalBson fuel t bson.Object
          ((kp.MarshalBson key).drop (key.length + 2) ++ r) =
        .ok (kp.cleared, r)) ∧
    (∀ (sk t : SrvKeyspace) (key : GoStr) (r : List Nat) (fuel : Nat),
      sk.wf → sk.fuelNeed ≤ fuel →
      SrvKeyspace.UnmarshalBson fuel t bson.Object
          ((sk.MarshalBson key).drop (key.length + 2) ++ r) =
        .ok ({ sk.cleared with version := t.version }, r)) := by
  refine ⟨fun ss t key r fuel hwf hf => ?_,
    fun kp t key r fuel hwf hf => ?_,
    fun sk t key r fuel hwf hf => ?_⟩
  · rw [srvShard_marshal_drop]; exact srvShard_unmarshal_doc t ss r fuel hwf hf
  · rw [kp_marshal_drop]; exact kp_unmarshal_doc t kp r fuel hwf hf
  · rw [srvKeyspace_marshal_drop]
    exact srvKeyspace_unmarshal_doc t sk r fuel hwf hf

/-- Witness for C1 at a concrete SrvKeyspace exercising collections of size
0, 1 and 2, an absent Partitions map in one branch, a non-empty map and an
empty ServedFrom map. -/
theorem c1_roundtrip_witness :
    (⟨[([109], ⟨[⟨⟨[128], [192]⟩, [[112]], [[114], [115]], 5⟩]⟩)],
       [⟨⟨[], [64]⟩, [], [[97]], 7⟩], [[109], [114]], [107], [], [], 9⟩ :
      SrvKeyspace).wf ∧
    (⟨[([109], ⟨[⟨⟨[128], [192]⟩, [[112]], [[114], [115]], 5⟩]⟩)],
       [⟨⟨[], [64]⟩, [], [[97]], 7⟩], [[109], [114]], [107], [], [], 9⟩ :
      SrvKeyspace).fuelNeed ≤ 99 ∧
    SrvKeyspace.UnmarshalBson 99 SrvKeyspace.zero bson.Object
        (((⟨[([109], ⟨[⟨⟨[128], [192]⟩, [[112]], [[114], [115]], 5⟩]⟩)],
            [⟨⟨[], [64]⟩, [], [[97]], 7⟩], [[109], [114]], [107], [], [], 9⟩ :
          SrvKeyspace).MarshalBson [107]).drop ([107].length + 2) ++ []) =
      .ok ({ (⟨[([109], ⟨[⟨⟨[128], [192]⟩, [[112]], [[114], [115]], 5⟩]⟩)],
              [⟨⟨[], [64]⟩, [], [[97]], 7⟩], [[109], [114]], [107], [], [],
              9⟩ : SrvKeyspace).cleared
            with version := SrvKeyspace.zero.version }, []) :=
  ⟨by decide, by decide,
    c1_roundtrip.2.2 _ SrvKeyspace.zero [107] [] 99 (by decide) (by decide)⟩

/-- C2, counterexample.  The claim says encoding an empty or absent
String-Keyed Map emits the Null tag for both instantiations, but
`EncodeServedFrom` has no emptiness check: the empty ServedFrom map is
encoded with the leading Object tag, not the Null tag. -/
theorem c2_counterexample :
    (EncodeServedFrom nmServedFrom []).head? = some bson.Object ∧
      bson.Object ≠ bson.Null := by
  constructor
  · rfl
  · decide

/-- C2, amended.  For the Partitions map, an empty or absent map emits the
Null tag and a non-empty one emits an Object whose field names are the
literal map keys; `EncodeServedFrom` always emits an Object — even for an
empty or absent map — whose field names are the literal map keys. -/
theorem c2_map_encoding :
    (∀ nm : GoStr, EncodeKeyspacePartitionMap nm [] = bson.Null :: nm ++ [0]) ∧
    (∀ (nm : GoStr) (vals : List (TabletType × KeyspacePartition)),
      vals ≠ [] →
      EncodeKeyspacePartitionMap nm vals = bson.Object :: nm ++ [0] ++
        lenDoc (vals.map fun p => bson.Object :: p.1 ++ [0] ++
          lenDoc p.2.bodyBson).flatten) ∧
    (∀ (nm : GoStr) (l : List (TabletType × GoStr)),
      EncodeServedFrom nm l = bson.Object :: nm ++ [0] ++
        lenDoc (l.map fun p => bson.Binary :: p.1 ++ [0] ++
          (lenBytes p.2.length ++ 0 :: p.2)).flatten) := by
  refine ⟨fun nm => ?_, fun nm vals hne => ?_, fun nm l => ?_⟩
  · simp [EncodeKeyspacePartitionMap, encodePrefix]
  · have : vals.length ≠ 0 := fun h => hne (List.length_eq_zero.mp h)
    simp only [EncodeKeyspacePartitionMap, if_neg this, encodePrefix,
      KeyspacePartition.MarshalBson]
  · simp only [EncodeServedFrom, encodePrefix, encodeString]
    have : ∀ p : TabletType × GoStr,
        ((bson.Binary :: p.1 ++ [0]) ++ lenBytes p.2.length ++ [0] ++ p.2) =
          bson.Binary :: p.1 ++ [0] ++ (lenBytes p.2.length ++ 0 :: p.2) := by
      intro p; simp
    simp only [this]

/-- Witness for the non-empty branch of the amended C2. -/
theorem c2_map_encoding_witness :
    ([([109], (⟨[]⟩ : KeyspacePartition))] ≠
        ([] : List (TabletType × KeyspacePartition))) ∧
    EncodeKeyspacePartitionMap [107] [([109], (⟨[]⟩ : KeyspacePartition))] =
      bson.Object :: [107] ++ [0] ++
        lenDoc ([([109], (⟨[]⟩ : KeyspacePartition))].map fun p =>
          bson.Object :: p.1 ++ [0] ++ lenDoc p.2.bodyBson).flatten :=
  ⟨by decide, c2_map_encoding.2.1 [107] [([109], ⟨[]⟩)] (by decide)⟩

/-- C6.  Each of the three collection decoders faults with the offending tag
and its context when the leading tag is outside its allowed set: the two
sequence decoders accept only Null or Array, the map decoder only Null or
Object; none returns a silently-empty result for a disallowed tag. -/
theorem c6_collection_tag_fault :
    (∀ (fuel kind : Nat) (buf : List Nat),
      kind ≠ bson.Array → kind ≠ bson.Null →
      DecodeTabletTypeArray fuel kind buf =
        .error (.unexpectedTag kind "TabletType array")) ∧
    (∀ (fuel kind : Nat) (buf : List Nat),
      kind ≠ bson.Array → kind ≠ bson.Null →
      DecodeSrvShardArray fuel kind buf =
        .error (.unexpectedTag kind "SrvShard array")) ∧
    (∀ (fuel kind : Nat) (buf : List Nat),
      kind ≠ bson.Object → kind ≠ bson.Null →
      DecodeKeyspacePartitionMap fuel kind buf =
        .error (.unexpectedTag kind "KeyspacePartition map")) := by
  refine ⟨fun fuel kind buf h1 h2 => ?_, fun fuel kind buf h1 h2 => ?_,
    fun fuel kind buf h1 h2 => ?_⟩
  · simp [DecodeTabletTypeArray, h1, h2]
  · simp [DecodeSrvShardArray, h1, h2]
  · simp [DecodeKeyspacePartitionMap, h1, h2]

/-- Witness for C6 at the concrete disallowed tag Object for a sequence and
Array for the map. -/
theorem c6_collection_tag_fault_witness :
    (bson.Object ≠ bson.Array ∧ bson.Object ≠ bson.Null ∧
      DecodeTabletTypeArray 5 bson.Object [1, 2, 3] =
        .error (.unexpectedTag bson.Object "TabletType array")) ∧
    (bson.Array ≠ bson.Object ∧ bson.Array ≠ bson.Null ∧
      DecodeKeyspacePartitionMap 5 bson.Array [1, 2, 3] =
        .error (.unexpectedTag bson.Array "KeyspacePartition map")) :=
  ⟨⟨by decide, by decide,
    c6_collection_tag_fault.1 5 bson.Object [1, 2, 3] (by decide) (by decide)⟩,
   ⟨by decide, by decide,
    c6_collection_tag_fault.2.2 5 bson.Array [1, 2, 3] (by decide) (by decide)⟩⟩

/-- C7.  ShardName is the literal "0" exactly when the range is not partial;
otherwise it is the lowercase hex encodings of the two boundaries joined by a
hyphen; and it is determined solely by the KeyRange, as in the spec scenario
with boundaries 0x80 and 0xc0. -/
theorem c7_shardName :
    (∀ ss : SrvShard, ss.ShardName = SHARD_ZERO ↔ ss.KeyRange.IsPartial = false) ∧
    (∀ ss : SrvShard, ss.KeyRange.IsPartial = true →
      ss.ShardName = hexStr ss.KeyRange.Start ++ "-" ++ hexStr ss.KeyRange.End) ∧
    (∀ s1 s2 : SrvShard, s1.KeyRange = s2.KeyRange →
      s1.ShardName = s2.ShardName) ∧
    SrvShard.ShardName ⟨⟨[128], [192]⟩, [], [], 0⟩ = "80-c0" := by
  have hyph : ∀ a b : GoStr, hexStr a ++ "-" ++ hexStr b ≠ SHARD_ZERO := by
    intro a b h
    have hd := congrArg String.data h
    simp only [String.data_append, hexStr] at hd
    cases a with
    | nil => simp [SHARD_ZERO] at hd
    | cons x xs => simp [SHARD_ZERO] at hd
  refine ⟨fun ss => ?_, fun ss h => ?_, fun s1 s2 h => ?_, by decide⟩
  · constructor
    · intro h
      by_contra hb
      have hp : ss.KeyRange.IsPartial = true := by
        cases hq : ss.KeyRange.IsPartial
        · exact absurd hq hb
        · rfl
      rw [SrvShard.ShardName, if_neg (by simp [hp])] at h
      exact hyph _ _ h
    · intro h
      rw [SrvShard.ShardName, if_pos (by simp [h])]
  · rw [SrvShard.ShardName, if_neg (by simp [h])]
  · simp only [SrvShard.ShardName, KeyRange.IsPartial, h]

/-- Witness for C7 at the spec scenario shard [0x80, 0xc0). -/
theorem c7_shardName_witness :
    ((⟨⟨[128], [192]⟩, [], [], 0⟩ : SrvShard).KeyRange.IsPartial = true) ∧
    (⟨⟨[128], [192]⟩, [], [], 0⟩ : SrvShard).ShardName =
      hexStr (⟨⟨[128], [192]⟩, [], [], 0⟩ : SrvShard).KeyRange.Start ++ "-" ++
        hexStr (⟨⟨[128], [192]⟩, [], [], 0⟩ : SrvShard).KeyRange.End :=
  ⟨by decide, c7_shardName.2.1 ⟨⟨[128], [192]⟩, [], [], 0⟩ (by decide)⟩

/-- The SrvShard field loop never assigns the version token: whatever the
buffer holds, a successful run returns the target's version. -/
theorem srvShardFields_version : ∀ (fuel : Nat) (t : SrvShard)
    (buf : List Nat) (res : SrvShard) (rest : List Nat),
    srvShardFields fuel t buf = .ok (res, rest) → res.version = t.version := by
  intro fuel
  induction fuel with
  | zero =>
    intro t buf res rest h
    simp [srvShardFields] at h
  | succ f ih =>
    intro t buf res rest h
    rw [srvShardFields] at h
    split at h
    · exact absurd h (by simp)
    · split at h
      · simp only [Except.ok.injEq, Prod.mk.injEq] at h
        rw [← h.1]
      · split at h
        · exact absurd h (by simp)
        · split at h
          · split at h
            · exact (ih _ _ _ _ h).trans rfl
            · exact absurd h (by simp)
          · split at h
            · split at h
              · exact (ih _ _ _ _ h).trans rfl
              · exact absurd h (by simp)
            · split at h
              · split at h
                · exact (ih _ _ _ _ h).trans rfl
                · exact absurd h (by simp)
              · split at h
                · exact (ih _ _ _ _ h).trans rfl
                · exact absurd h (by simp)

/-- The SrvKeyspace field loop never assigns the version token. -/
theorem srvKeyspaceFields_version : ∀ (fuel : Nat) (t : SrvKeyspace)
    (buf : List Nat) (res : SrvKeyspace) (rest : List Nat),
    srvKeyspaceFields fuel t buf = .ok (res, rest) →
      res.version = t.version := by
  intro fuel
  induction fuel with
  | zero =>
    intro t buf res rest h
    simp [srvKeyspaceFields] at h
  | succ f ih =>
    intro t buf res rest h
    rw [srvKeyspaceFields] at h
    split at h
    · exact absurd h (by simp)
    · split at h
      · simp only [Except.ok.injEq, Prod.mk.injEq] at h
        rw [← h.1]
      · split at h
        · exact absurd h (by simp)
        · split at h
          · split at h
            · exact (ih _ _ _ _ h).trans rfl
            · exact absurd h (by simp)
          · split at h
            · split at h
              · exact (ih _ _ _ _ h).trans rfl
              · exact absurd h (by simp)
            · split at h
              · split at h
                · exact (ih _ _ _ _ h).trans rfl
                · exact absurd h (by simp)
              · split at h
                · split at h
                  · exact (ih _ _ _ _ h).trans rfl
                  · exact absurd h (by simp)
                · split at h
                  · split at h
                    · exact (ih _ _ _ _ h).trans rfl
                    · exact absurd h (by simp)
                  · split at h
                    · split at h
                      · exact (ih _ _ _ _ h).trans rfl
                      · exact absurd h (by simp)
                    · split at h
                      · exact (ih _ _ _ _ h).trans rfl
                      · exact absurd h (by simp)

/-- C8.  The version token never appears in the wire form: values differing
only in their version field marshal to identical byte sequences, and a
successful unmarshal of any buffer leaves the target's version field
unchanged, for both SrvShard and SrvKeyspace. -/
theorem c8_version_not_serialized :
    (∀ (ss : SrvShard) (v : Int) (key : GoStr),
      SrvShard.MarshalBson { ss with version := v } key =
        ss.MarshalBson key) ∧
    (∀ (sk : SrvKeyspace) (v : Int) (key : GoStr),
      SrvKeyspace.MarshalBson { sk with version := v } key =
        sk.MarshalBson key) ∧
    (∀ (fuel : Nat) (t : SrvShard) (kind : Nat) (buf : List Nat)
        (res : SrvShard) (rest : List Nat),
      SrvShard.UnmarshalBson fuel t kind buf = .ok (res, rest) →
        res.version = t.version) ∧
    (∀ (fuel : Nat) (t : SrvKeyspace) (kind : Nat) (buf : List Nat)
        (res : SrvKeyspace) (rest : List Nat),
      SrvKeyspace.UnmarshalBson fuel t kind buf = .ok (res, rest) →
        res.version = t.version) := by
  refine ⟨fun ss v key => rfl, fun sk v key => rfl, ?_, ?_⟩
  · intro fuel t kind buf res rest h
    rw [SrvShard.UnmarshalBson] at h
    split at h
    · exact absurd h (by simp)
    · split at h
      · exact absurd h (by simp)
      · exact srvShardFields_version fuel t _ res rest h
  · intro fuel t kind buf res rest h
    rw [SrvKeyspace.UnmarshalBson] at h
    split at h
    · exact absurd h (by simp)
    · split at h
      · exact absurd h (by simp)
      · exact srvKeyspaceFields_version fuel t _ res rest h

/-- Witness for C8: a successful concrete decode of an empty document into a
target with version 42 returns version 42. -/
theorem c8_version_not_serialized_witness :
    SrvShard.UnmarshalBson 3 ⟨⟨[1], [2]⟩, [[97]], [], 42⟩ bson.Object
        [5, 0, 0, 0, 0] = .ok (⟨⟨[1], [2]⟩, [[97]], [], 42⟩, []) ∧
    (⟨⟨[1], [2]⟩, [[97]], [], 42⟩ : SrvShard).version = 42 ∧
    ((⟨⟨[1], [2]⟩, [[97]], [], 42⟩ : SrvShard).version =
      (⟨⟨[1], [2]⟩, [[97]], [], 42⟩ : SrvShard).version) :=
  ⟨by rfl, by decide,
    c8_version_not_serialized.2.2.1 3 ⟨⟨[1], [2]⟩, [[97]], [], 42⟩
      bson.Object [5, 0, 0, 0, 0] ⟨⟨[1], [2]⟩, [[97]], [], 42⟩ []
      (by rfl)⟩

theorem goStrLt_asymm : ∀ a b : GoStr, goStrLt a b = true →
    goStrLt b a = false := by
  intro a
  induction a with
  | nil =>
    intro b h
    cases b with
    | nil => simp [goStrLt] at h
    | cons y ys => simp [goStrLt]
  | cons x xs ih =>
    intro b h
    cases b with
    | nil => simp [goStrLt] at h
    | cons y ys =>
      rcases Nat.lt_trichotomy x y with hxy | hxy | hxy
      · simp [goStrLt, hxy, Nat.lt_asymm hxy]
      · subst hxy
        simp only [goStrLt, lt_irrefl, if_false] at h ⊢
        exact ih ys h
      · simp [goStrLt, hxy, Nat.lt_asymm hxy] at h

theorem goStrLt_conn : ∀ a b : GoStr, goStrLt a b = false →
    goStrLt b a = false → a = b := by
  intro a
  induction a with
  | nil =>
    intro b h1 _
    cases b with
    | nil => rfl
    | cons y ys => simp [goStrLt] at h1
  | cons x xs ih =>
    intro b h1 h2
    cases b with
    | nil => simp [goStrLt] at h2
    | cons y ys =>
      rcases Nat.lt_trichotomy x y with hxy | hxy | hxy
      · simp [goStrLt, hxy] at h1
      · subst hxy
        simp only [goStrLt, lt_irrefl, if_false] at h1 h2
        rw [ih ys h1 h2]
      · simp [goStrLt, hxy, Nat.lt_asymm hxy] at h2

theorem goStrLt_trans : ∀ a b c : GoStr, goStrLt a b = true →
    goStrLt b c = true → goStrLt a c = true := by
  intro a
  induction a with
  | nil =>
    intro b c h1 h2
    cases b with
    | nil => simp [goStrLt] at h1
    | cons y ys =>
      cases c with
      | nil => simp [goStrLt] at h2
      | cons z zs => simp [goStrLt]
  | cons x xs ih =>
    intro b c h1 h2
    cases b with
    | nil => simp [goStrLt] at h1
    | cons y ys =>
      cases c with
      | nil => simp [goStrLt] at h2
      | cons z zs =>
        rcases Nat.lt_trichotomy x y with hxy | hxy | hxy
        · rcases Nat.lt_trichotomy y z with hyz | hyz | hyz
          · simp [goStrLt, Nat.lt_trans hxy hyz]
          · subst hyz; simp [goStrLt, hxy]
          · simp [goStrLt, hyz, Nat.lt_asymm hyz] at h2
        · subst hxy
          rcases Nat.lt_trichotomy x z with hxz | hxz | hxz
          · simp [goStrLt, hxz]
          · subst hxz
            simp only [goStrLt, lt_irrefl, if_false] at h1 h2 ⊢
            exact ih ys zs h1 h2
          · rcases Nat.lt_trichotomy x z with h | h | h
            · omega
            · omega
            · simp [goStrLt, h, Nat.lt_asymm h] at h2
        · simp [goStrLt, hxy, Nat.lt_asymm hxy] at h1

theorem orderedInsertShard_perm (a : SrvShard) (l : List SrvShard) :
    List.Perm (orderedInsertShard a l) (a :: l) := by
  induction l with
  | nil => simp [orderedInsertShard]
  | cons b t ih =>
    rw [orderedInsertShard]
    by_cases hba : shardLess b a = true
    · rw [if_pos hba]
      exact ((ih.cons b).trans (List.Perm.swap a b t))
    · rw [if_neg hba]

theorem sortShards_perm (l : List SrvShard) :
    List.Perm (SrvShardArray.Sort l) l := by
  induction l with
  | nil => simp [SrvShardArray.Sort]
  | cons x t ih =>
    rw [SrvShardArray.Sort, List.foldr_cons]
    exact (orderedInsertShard_perm x _).trans (ih.cons x)

theorem orderedInsertShard_sorted (a : SrvShard) (l : List SrvShard)
    (hl : l.Pairwise shardLe) :
    (orderedInsertShard a l).Pairwise shardLe := by
  induction l with
  | nil => simp [orderedInsertShard]
  | cons b t ih =>
    rcases List.pairwise_cons.mp hl with ⟨hb, ht⟩
    rw [orderedInsertShard]
    by_cases hba : shardLess b a = true
    · rw [if_pos hba]
      refine List.pairwise_cons.mpr ⟨?_, ih ht⟩
      intro c hc
      rcases List.mem_cons.mp
          ((List.Perm.mem_iff (orderedInsertShard_perm a t)).mp hc) with h | h
      · subst h
        exact goStrLt_asymm _ _ hba
      · exact hb c h
    · rw [if_neg hba]
      have hba' : shardLess b a = false := by
        cases hq : shardLess b a
        · rfl
        · exact absurd hq hba
      simp only [shardLess] at hba'
      refine List.pairwise_cons.mpr ⟨?_, hl⟩
      intro c hc
      rcases List.mem_cons.mp hc with h | h
      · subst h
        exact hba'
      · have hbc : goStrLt c.KeyRange.Start b.KeyRange.Start = false := hb c h
        show goStrLt c.KeyRange.Start a.KeyRange.Start = false
        cases hca : goStrLt c.KeyRange.Start a.KeyRange.Start
        · rfl
        · exfalso
          cases hq : goStrLt b.KeyRange.Start c.KeyRange.Start
          · have heq := goStrLt_conn _ _ hq hbc
            rw [heq] at hba'
            simp [hca] at hba'
          · have := goStrLt_trans _ _ _ hq hca
            simp [this] at hba'

theorem sortShards_sorted (l : List SrvShard) :
    (SrvShardArray.Sort l).Pairwise shardLe := by
  induction l with
  | nil => simp [SrvShardArray.Sort]
  | cons x t ih =>
    rw [SrvShardArray.Sort, List.foldr_cons]
    exact orderedInsertShard_sorted x _ ih

theorem sortShards_of_sorted (l : List SrvShard) (hl : l.Pairwise shardLe) :
    SrvShardArray.Sort l = l := by
  induction l with
  | nil => rfl
  | cons x t ih =>
    rcases List.pairwise_cons.mp hl with ⟨hx, ht⟩
    rw [SrvShardArray.Sort, List.foldr_cons]
    show orderedInsertShard x (SrvShardArray.Sort t) = x :: t
    rw [show SrvShardArray.Sort t = t from ih ht]
    cases t with
    | nil => rfl
    | cons b t' =>
      have hxb := hx b (List.mem_cons_self b t')
      simp only [shardLe] at hxb
      rw [orderedInsertShard, if_neg (by simp [hxb])]

/-- C4.  For shards with pairwise-distinct starts in arbitrary order, Sort
yields a sequence strictly ascending by KeyRange.Start under the source's
Less relation; applying Sort twice equals applying it once (unconditionally);
and Sort is a permutation of its input.  The sorting algorithm itself is
Go's sort.Sort, outside this repository, modelled per §4.4 as an ascending
sort by the source's Less; these conclusions hold for any sort meeting that
contract. -/
theorem c4_sort_strict_idempotent :
    (∀ l : List SrvShard,
      (l.map fun s => s.KeyRange.Start).Nodup →
      (SrvShardArray.Sort l).Pairwise
        (fun x y => goStrLt x.KeyRange.Start y.KeyRange.Start = true)) ∧
    (∀ l : List SrvShard,
      SrvShardArray.Sort (SrvShardArray.Sort l) = SrvShardArray.Sort l) ∧
    (∀ l : List SrvShard, List.Perm (SrvShardArray.Sort l) l) := by
  refine ⟨fun l hnd => ?_, fun l => ?_, sortShards_perm⟩
  · have hnd2 : ((SrvShardArray.Sort l).map fun s => s.KeyRange.Start).Nodup :=
      (List.Perm.nodup_iff ((sortShards_perm l).map _)).mpr hnd
    have hne : (SrvShardArray.Sort l).Pairwise
        (fun x y => x.KeyRange.Start ≠ y.KeyRange.Start) :=
      List.pairwise_map.mp hnd2
    have hle := sortShards_sorted l
    refine (hle.and hne).imp ?_
    intro x y hxy
    obtain ⟨hxy1, hxy2⟩ := hxy
    simp only [shardLe, shardLess] at hxy1
    cases hq : goStrLt x.KeyRange.Start y.KeyRange.Start
    · exact absurd (goStrLt_conn _ _ hq hxy1) hxy2
    · rfl
  · exact sortShards_of_sorted _ (sortShards_sorted l)

/-- Witness for C4 at two out-of-order shards with distinct starts. -/
theorem c4_sort_witness :
    (([⟨⟨[192], []⟩, [], [], 0⟩, ⟨⟨[128], [192]⟩, [], [], 1⟩] :
        List SrvShard).map fun s => s.KeyRange.Start).Nodup ∧
    (SrvShardArray.Sort
        [⟨⟨[192], []⟩, [], [], 0⟩, ⟨⟨[128], [192]⟩, [], [], 1⟩]).Pairwise
      (fun x y => goStrLt x.KeyRange.Start y.KeyRange.Start = true) :=
  ⟨by decide,
    c4_sort_strict_idempotent.1
      [⟨⟨[192], []⟩, [], [], 0⟩, ⟨⟨[128], [192]⟩, [], [], 1⟩] (by decide)⟩

theorem wireTag_ne_eoo (v : WireVal) : v.tag ≠ bson.EOO := by
  cases v <;> simp [WireVal.tag, bson.Null, bson.StringTag, bson.Binary,
    bson.Object, bson.Array, bson.EOO]

/-- `bson.Skip` consumes exactly the body of a wellformed wire value. -/
theorem skip_wireval (v : WireVal) (hwf : v.wf) (r : List Nat) :
    skip v.tag (v.body ++ r) = .ok ((), r) := by
  cases v with
  | wnull =>
    simp [skip, WireVal.tag, WireVal.body, bson.Null, bson.Object, bson.Array,
      bson.Binary, bson.StringTag]
  | wstr s =>
    simp only [WireVal.tag, WireVal.body, skip, List.append_assoc]
    rw [if_neg (by simp [bson.StringTag, bson.Object, bson.Array]),
      if_neg (by simp [bson.StringTag, bson.Binary])]
    simp only [if_true]
    rw [readLen32_lenBytes _ _ hwf]
    simp only []
    have h2 : dropN (s.length + 1) (s ++ ([0] ++ r)) = .ok ((), r) := by
      have := dropN_exact (s ++ [0]) r
      simpa using this
    exact h2
  | wbin s =>
    simp only [WireVal.tag, WireVal.body, skip, List.append_assoc,
      List.cons_append, List.nil_append]
    rw [if_neg (by simp [bson.Binary, bson.Object, bson.Array])]
    simp only [if_true]
    rw [readLen32_lenBytes _ _ hwf]
    simp only []
    have h2 : dropN (s.length + 1) (0 :: (s ++ r)) = .ok ((), r) := by
      have := dropN_exact (0 :: s) r
      simpa using this
    exact h2
  | wobj b =>
    simp only [WireVal.tag, WireVal.body, skip, lenDoc, List.append_assoc]
    simp only [true_or, if_true]
    rw [readLen32_lenBytes _ _ hwf]
    simp only []
    have h2 : dropN (b.length + 1) (b ++ ([0] ++ r)) = .ok ((), r) := by
      have := dropN_exact (b ++ [0]) r
      simpa using this
    exact h2
  | warr b =>
    simp only [WireVal.tag, WireVal.body, skip, lenDoc, List.append_assoc]
    simp only [or_true, if_true]
    rw [readLen32_lenBytes _ _ hwf]
    simp only []
    have h2 : dropN (b.length + 1) (b ++ ([0] ++ r)) = .ok ((), r) := by
      have := dropN_exact (b ++ [0]) r
      simpa using this
    exact h2

/-- Decoding the byte image of any wellformed sequence of SrvShard fields —
known fields in any order and multiplicity, unrecognized fields anywhere —
succeeds and equals the left fold of the fields' semantic effects over the
target. -/
theorem srvShardFields_items (items : List ShardField) :
    ∀ (fuel : Nat) (tgt : SrvShard) (r : List Nat),
      (∀ i ∈ items, i.wf) → shardFieldsNeed items ≤ fuel →
      srvShardFields fuel tgt (shardFieldsBytes items ++ 0 :: r) =
        .ok (items.foldl ShardField.apply tgt, r) := by
  induction items with
  | nil =>
    intro fuel tgt r _ hf
    obtain ⟨f, rfl⟩ : ∃ f, fuel = f + 1 :=
      ⟨fuel - 1, by simp [shardFieldsNeed] at hf; omega⟩
    simp [shardFieldsBytes, srvShardFields, nextByte, bson.EOO]
  | cons i rest ih =>
    intro fuel tgt r hwf hf
    simp only [shardFieldsNeed, List.foldr_cons] at hf
    obtain ⟨f, rfl⟩ : ∃ f, fuel = f + 1 := ⟨fuel - 1, by omega⟩
    have hiw := hwf i (List.mem_cons_self i rest)
    have hrest : ∀ j ∈ rest, j.wf :=
      fun j hj => hwf j (List.mem_cons_of_mem i hj)
    cases i with
    | keyRange kr =>
      rw [shardFieldsBytes, List.map_cons, List.flatten_cons,
        show ShardField.bytes (ShardField.keyRange kr) =
          bson.Object :: (nmKeyRange ++ 0 :: lenDoc kr.bodyBson) from by
            simp [ShardField.bytes, KeyRange.MarshalBson, encodePrefix]]
      rw [srvShardFields]
      simp only [List.cons_append, List.append_assoc, List.singleton_append,
        List.nil_append, nextByte]
      rw [if_neg object_ne_eoo, readCString_encode _ _ (by decide)]
      simp only [if_true]
      rw [keyRange_unmarshal_doc tgt.KeyRange kr _ f hiw
        (by simp only [ShardField.need] at hf; omega)]
      simp only []
      have hih := ih f { tgt with KeyRange := kr } r hrest
        (by simp only [shardFieldsNeed]; omega)
      simp only [shardFieldsBytes] at hih
      rw [hih]
      rfl
    | servedTypes l =>
      obtain ⟨tag1, rest1, hsh, htag, hdec⟩ :=
        encodeTTArray_field nmServedTypes l hiw
      rw [shardFieldsBytes, List.map_cons, List.flatten_cons,
        show ShardField.bytes (ShardField.servedTypes l) =
          tag1 :: (nmServedTypes ++ 0 :: rest1) from hsh]
      rw [srvShardFields]
      simp only [List.cons_append, List.append_assoc, List.singleton_append,
        List.nil_append, nextByte]
      rw [if_neg htag, readCString_encode _ _ (by decide)]
      simp only [if_true]
      rw [if_neg (by decide)]
      rw [hdec f _ (by simp only [ShardField.need] at hf; omega)]
      simp only []
      have hih := ih f { tgt with ServedTypes := l } r hrest
        (by simp only [shardFieldsNeed]; omega)
      simp only [shardFieldsBytes] at hih
      rw [hih]
      rfl
    | tabletTypes l =>
      obtain ⟨tag1, rest1, hsh, htag, hdec⟩ :=
        encodeTTArray_field nmTabletTypes l hiw
      rw [shardFieldsBytes, List.map_cons, List.flatten_cons,
        show ShardField.bytes (ShardField.tabletTypes l) =
          tag1 :: (nmTabletTypes ++ 0 :: rest1) from hsh]
      rw [srvShardFields]
      simp only [List.cons_append, List.append_assoc, List.singleton_append,
        List.nil_append, nextByte]
      rw [if_neg htag, readCString_encode _ _ (by decide)]
      simp only [if_true]
      rw [if_neg (by decide), if_neg (by decide)]
      rw [hdec f _ (by simp only [ShardField.need] at hf; omega)]
      simp only []
      have hih := ih f { tgt with TabletTypes := l } r hrest
        (by simp only [shardFieldsNeed]; omega)
      simp only [shardFieldsBytes] at hih
      rw [hih]
      rfl
    | unknown nm v =>
      obtain ⟨hnm, h0, hv⟩ := hiw
      simp only [List.mem_cons, List.mem_singleton, not_or] at hnm
      obtain ⟨hn1, hn2, hn3⟩ := hnm
      rw [shardFieldsBytes, List.map_cons, List.flatten_cons,
        show ShardField.bytes (ShardField.unknown nm v) =
          v.tag :: (nm ++ 0 :: v.body) from by
            simp [ShardField.bytes]]
      rw [srvShardFields]
      simp only [List.cons_append, List.append_assoc, List.singleton_append,
        List.nil_append, nextByte]
      rw [if_neg (wireTag_ne_eoo v), readCString_encode _ _ h0]
      simp only []
      rw [if_neg hn1, if_neg hn2, if_neg hn3.1]
      rw [skip_wireval v hv _]
      simp only []
      have hih := ih f tgt r hrest (by simp only [shardFieldsNeed]; omega)
      simp only [shardFieldsBytes] at hih
      rw [hih]
      rfl

/-- Decoding the byte image of any wellformed sequence of KeyspacePartition
fields succeeds and equals the left fold of the fields' semantic effects. -/
theorem kpFields_items (items : List KPField) :
    ∀ (fuel : Nat) (tgt : KeyspacePartition) (r : List Nat),
      (∀ i ∈ items, i.wf) → kpFieldsNeed items ≤ fuel →
      kpFields fuel tgt (kpFieldsBytes items ++ 0 :: r) =
        .ok (items.foldl KPField.apply tgt, r) := by
  induction items with
  | nil =>
    intro fuel tgt r _ hf
    obtain ⟨f, rfl⟩ : ∃ f, fuel = f + 1 :=
      ⟨fuel - 1, by simp [kpFieldsNeed] at hf; omega⟩
    simp [kpFieldsBytes, kpFields, nextByte, bson.EOO]
  | cons i rest ih =>
    intro fuel tgt r hwf hf
    simp only [kpFieldsNeed, List.foldr_cons] at hf
    obtain ⟨f, rfl⟩ : ∃ f, fuel = f + 1 := ⟨fuel - 1, by omega⟩
    have hiw := hwf i (List.mem_cons_self i rest)
    have hrest : ∀ j ∈ rest, j.wf :=
      fun j hj => hwf j (List.mem_cons_of_mem i hj)
    cases i with
    | shards l =>
      obtain ⟨tag1, rest1, hsh, htag, hdec⟩ :=
        encodeSSArray_field nmShards l hiw
      rw [kpFieldsBytes, List.map_cons, List.flatten_cons,
        show KPField.bytes (KPField.shards l) =
          tag1 :: (nmShards ++ 0 :: rest1) from hsh]
      rw [kpFields]
      simp only [List.cons_append, List.append_assoc, List.singleton_append,
        List.nil_append, nextByte]
      rw [if_neg htag, readCString_encode _ _ (by decide)]
      simp only [if_true]
      rw [hdec f _ (by simp only [KPField.need] at hf; omega)]
      simp only []
      have hih := ih f ⟨l.map SrvShard.cleared⟩ r hrest
        (by simp only [kpFieldsNeed]; omega)
      simp only [kpFieldsBytes] at hih
      rw [hih]
      rfl
    | unknown nm v =>
      obtain ⟨hn1, h0, hv⟩ := hiw
      rw [kpFieldsBytes, List.map_cons, List.flatten_cons,
        show KPField.bytes (KPField.unknown nm v) =
          v.tag :: (nm ++ 0 :: v.body) from by simp [KPField.bytes]]
      rw [kpFields]
      simp only [List.cons_append, List.append_assoc, List.singleton_append,
        List.nil_append, nextByte]
      rw [if_neg (wireTag_ne_eoo v), readCString_encode _ _ h0]
      simp only []
      rw [if_neg hn1]
      rw [skip_wireval v hv _]
      simp only []
      have hih := ih f tgt r hrest (by simp only [kpFieldsNeed]; omega)
      simp only [kpFieldsBytes] at hih
      rw [hih]
      rfl

/-- Decoding the byte image of any wellformed sequence of SrvKeyspace fields
succeeds and equals the left fold of the fields' semantic effects. -/
theorem srvKeyspaceFields_items (items : List KSField) :
    ∀ (fuel : Nat) (tgt : SrvKeyspace) (r : List Nat),
      (∀ i ∈ items, i.wf) → ksFieldsNeed items ≤ fuel →
      srvKeyspaceFields fuel tgt (ksFieldsBytes items ++ 0 :: r) =
        .ok (items.foldl KSField.apply tgt, r) := by
  induction items with
  | nil =>
    intro fuel tgt r _ hf
    obtain ⟨f, rfl⟩ : ∃ f, fuel = f + 1 :=
      ⟨fuel - 1, by simp [ksFieldsNeed] at hf; omega⟩
    simp [ksFieldsBytes, srvKeyspaceFields, nextByte, bson.EOO]
  | cons i rest ih =>
    intro fuel tgt r hwf hf
    simp only [ksFieldsNeed, List.foldr_cons] at hf
    obtain ⟨f, rfl⟩ : ∃ f, fuel = f + 1 := ⟨fuel - 1, by omega⟩
    have hiw := hwf i (List.mem_cons_self i rest)
    have hrest : ∀ j ∈ rest, j.wf :=
      fun j hj => hwf j (List.mem_cons_of_mem i hj)
    cases i with
    | partitions m =>
      obtain ⟨hm1, hm2⟩ := hiw
      obtain ⟨tag1, rest1, hsh, htag, hdec⟩ :=
        encodeKPMap_field nmPartitions m hm1 hm2
      rw [ksFieldsBytes, List.map_cons, List.flatten_cons,
        show KSField.bytes (KSField.partitions m) =
          tag1 :: (nmPartitions ++ 0 :: rest1) from hsh]
      rw [srvKeyspaceFields]
      simp only [List.cons_append, List.append_assoc, List.singleton_append,
        List.nil_append, nextByte]
      rw [if_neg htag, readCString_encode _ _ (by decide)]
      simp only [if_true]
      rw [hdec f _ (by simp only [KSField.need] at hf; omega)]
      simp only []
      have hih := ih f { tgt with
          Partitions := m.map fun p => (p.1, p.2.cleared) } r hrest
        (by simp only [ksFieldsNeed]; omega)
      simp only [ksFieldsBytes] at hih
      rw [hih]
      rfl
    | shards l =>
      obtain ⟨tag1, rest1, hsh, htag, hdec⟩ :=
        encodeSSArray_field nmShards l hiw
      rw [ksFieldsBytes, List.map_cons, List.flatten_cons,
        show KSField.bytes (KSField.shards l) =
          tag1 :: (nmShards ++ 0 :: rest1) from hsh]
      rw [srvKeyspaceFields]
      simp only [List.cons_append, List.append_assoc, List.singleton_append,
        List.nil_append, nextByte]
      rw [if_neg htag, readCString_encode _ _ (by decide)]
      simp only [if_true]
      rw [if_neg (by decide)]
      rw [hdec f _ (by simp only [KSField.need] at hf; omega)]
      simp only []
      have hih := ih f { tgt with Shards := l.map SrvShard.cleared } r hrest
        (by simp only [ksFieldsNeed]; omega)
      simp only [ksFieldsBytes] at hih
      rw [hih]
      rfl
    | tabletTypes l =>
      obtain ⟨tag1, rest1, hsh, htag, hdec⟩ :=
        encodeTTArray_field nmTabletTypes l hiw
      rw [ksFieldsBytes, List.map_cons, List.flatten_cons,
        show KSField.bytes (KSField.tabletTypes l) =
          tag1 :: (nmTabletTypes ++ 0 :: rest1) from hsh]
      rw [srvKeyspaceFields]
      simp only [List.cons_append, List.append_assoc, List.singleton_append,
        List.nil_append, nextByte]
      rw [if_neg htag, readCString_encode _ _ (by decide)]
      simp only [if_true]
      rw [if_neg (by decide), if_neg (by decide)]
      rw [hdec f _ (by simp only [KSField.need] at hf; omega)]
      simp only []
      have hih := ih f { tgt with TabletTypes := l } r hrest
        (by simp only [ksFieldsNeed]; omega)
      simp only [ksFieldsBytes] at hih
      rw [hih]
      rfl
    | shardingColumnName s =>
      rw [ksFieldsBytes, List.map_cons, List.flatten_cons,
        show KSField.bytes (KSField.shardingColumnName s) =
          bson.Binary :: (nmShardingColumnName ++ 0 ::
            (lenBytes s.length ++ 0 :: s)) from by
          simpa [KSField.bytes] using (encodeString_field _ s hiw).1]
      rw [srvKeyspaceFields]
      simp only [List.cons_append, List.append_assoc, List.singleton_append,
        List.nil_append, nextByte]
      rw [if_neg binary_ne_eoo, readCString_encode _ _ (by decide)]
      simp only [if_true]
      rw [if_neg (by decide), if_neg (by decide), if_neg (by decide)]
      simp only [List.nil_append, decodeString_binary s _ hiw]
      have hih := ih f { tgt with ShardingColumnName := s } r hrest
        (by simp only [ksFieldsNeed]; omega)
      simp only [ksFieldsBytes] at hih
      rw [hih]
      rfl
    | shardingColumnType s =>
      rw [ksFieldsBytes, List.map_cons, List.flatten_cons,
        show KSField.bytes (KSField.shardingColumnType s) =
          bson.Binary :: (nmShardingColumnType ++ 0 ::
            (lenBytes s.length ++ 0 :: s)) from by
          simpa [KSField.bytes] using (encodeString_field _ s hiw).1]
      rw [srvKeyspaceFields]
      simp only [List.cons_append, List.append_assoc, List.singleton_append,
        List.nil_append, nextByte]
      rw [if_neg binary_ne_eoo, readCString_encode _ _ (by decide)]
      simp only [if_true]
      rw [if_neg (by decide), if_neg (by decide), if_neg (by decide),
        if_neg (by decide)]
      simp only [List.nil_append, decodeString_binary s _ hiw]
      have hih := ih f { tgt with ShardingColumnType := s } r hrest
        (by simp only [ksFieldsNeed]; omega)
      simp only [ksFieldsBytes] at hih
      rw [hih]
      rfl
    | servedFrom m =>
      obtain ⟨hm1, hm2⟩ := hiw
      obtain ⟨hsh, hdec⟩ := encodeServedFrom_field nmServedFrom m hm1 hm2
      rw [ksFieldsBytes, List.map_cons, List.flatten_cons,
        show KSField.bytes (KSField.servedFrom m) =
          bson.Object :: (nmServedFrom ++ 0 ::
            lenDoc ((m.map fun p => encodeString p.1 p.2).flatten)) from by
          simpa [KSField.bytes] using hsh]
      rw [srvKeyspaceFields]
      simp only [List.cons_append, List.append_assoc, List.singleton_append,
        List.nil_append, nextByte]
      rw [if_neg object_ne_eoo, readCString_encode _ _ (by decide)]
      simp only [if_true]
      rw [if_neg (by decide), if_neg (by decide), if_neg (by decide),
        if_neg (by decide), if_neg (by decide)]
      rw [hdec f _ (by simp only [KSField.need] at hf; omega)]
      simp only []
      have hih := ih f { tgt with ServedFrom := m } r hrest
        (by simp only [ksFieldsNeed]; omega)
      simp only [ksFieldsBytes] at hih
      rw [hih]
      rfl
    | unknown nm v =>
      obtain ⟨hnm, h0, hv⟩ := hiw
      simp only [List.mem_cons, List.not_mem_nil, or_false, not_or] at hnm
      obtain ⟨hn1, hn2, hn3, hn4, hn5, hn6⟩ := hnm
      rw [ksFieldsBytes, List.map_cons, List.flatten_cons,
        show KSField.bytes (KSField.unknown nm v) =
          v.tag :: (nm ++ 0 :: v.body) from by simp [KSField.bytes]]
      rw [srvKeyspaceFields]
      simp only [List.cons_append, List.append_assoc, List.singleton_append,
        List.nil_append, nextByte]
      rw [if_neg (wireTag_ne_eoo v), readCString_encode _ _ h0]
      simp only []
      rw [if_neg hn1, if_neg hn2, if_neg hn3, if_neg hn4, if_neg hn5,
        if_neg hn6]
      rw [skip_wireval v hv _]
      simp only []
      have hih := ih f tgt r hrest (by simp only [ksFieldsNeed]; omega)
      simp only [ksFieldsBytes] at hih
      rw [hih]
      rfl

theorem shardField_apply_comm (x y : ShardField) (h : x.name ≠ y.name)
    (z : SrvShard) :
    ShardField.apply (ShardField.apply z x) y =
      ShardField.apply (ShardField.apply z y) x := by
  cases x <;> cases y <;> first
    | rfl
    | exact absurd rfl h

theorem shardField_apply_overwrite (f1 f2 : ShardField) (h : f1.name = f2.name)
    (h1 : f1.known) (h2 : f2.known) (t : SrvShard) :
    ShardField.apply (ShardField.apply t f1) f2 = ShardField.apply t f2 := by
  cases f1 <;> cases f2 <;> first
    | rfl
    | (refine absurd h1 ?_; simp [ShardField.known]; done)
    | (refine absurd h2 ?_; simp [ShardField.known]; done)
    | (simp only [ShardField.name] at h; exfalso; revert h; decide)

theorem shardField_apply_stable (f2 m : ShardField) (h2 : f2.known)
    (a b : SrvShard) (h : ShardField.apply a f2 = ShardField.apply b f2) :
    ShardField.apply (ShardField.apply a m) f2 =
      ShardField.apply (ShardField.apply b m) f2 := by
  cases f2 <;> first
    | (refine absurd h2 ?_; simp [ShardField.known]; done)
    | (cases m <;> first
        | rfl
        | (simp_all [ShardField.apply]; done))

theorem shardField_foldl_stable (mid : List ShardField) (f2 : ShardField)
    (h2 : f2.known) :
    ∀ a b, ShardField.apply a f2 = ShardField.apply b f2 →
    ShardField.apply (mid.foldl ShardField.apply a) f2 =
      ShardField.apply (mid.foldl ShardField.apply b) f2 := by
  induction mid with
  | nil => intro a b h; exact h
  | cons m t ih =>
    intro a b h
    exact ih _ _ (shardField_apply_stable f2 m h2 a b h)

theorem kpField_apply_comm (x y : KPField) (h : x.name ≠ y.name)
    (z : KeyspacePartition) :
    KPField.apply (KPField.apply z x) y = KPField.apply (KPField.apply z y) x := by
  cases x <;> cases y <;> first
    | rfl
    | exact absurd rfl h

theorem kpField_apply_overwrite (f1 f2 : KPField) (h : f1.name = f2.name)
    (h1 : f1.known) (h2 : f2.known) (t : KeyspacePartition) :
    KPField.apply (KPField.apply t f1) f2 = KPField.apply t f2 := by
  cases f1 <;> cases f2 <;> first
    | rfl
    | (refine absurd h1 ?_; simp [KPField.known]; done)
    | (refine absurd h2 ?_; simp [KPField.known]; done)
    | (simp only [KPField.name] at h; exfalso; revert h; decide)

theorem kpField_apply_stable (f2 m : KPField) (h2 : f2.known)
    (a b : KeyspacePartition) (h : KPField.apply a f2 = KPField.apply b f2) :
    KPField.apply (KPField.apply a m) f2 =
      KPField.apply (KPField.apply b m) f2 := by
  cases f2 <;> first
    | (refine absurd h2 ?_; simp [KPField.known]; done)
    | (cases m <;> first
        | rfl
        | (simp_all [KPField.apply]; done))

theorem kpField_foldl_stable (mid : List KPField) (f2 : KPField)
    (h2 : f2.known) :
    ∀ a b, KPField.apply a f2 = KPField.apply b f2 →
    KPField.apply (mid.foldl KPField.apply a) f2 =
      KPField.apply (mid.foldl KPField.apply b) f2 := by
  induction mid with
  | nil => intro a b h; exact h
  | cons m t ih =>
    intro a b h
    exact ih _ _ (kpField_apply_stable f2 m h2 a b h)

theorem ksField_apply_comm (x y : KSField) (h : x.name ≠ y.name)
    (z : SrvKeyspace) :
    KSField.apply (KSField.apply z x) y = KSField.apply (KSField.apply z y) x := by
  cases x <;> cases y <;> first
    | rfl
    | exact absurd rfl h

theorem ksField_apply_overwrite (f1 f2 : KSField) (h : f1.name = f2.name)
    (h1 : f1.known) (h2 : f2.known) (t : SrvKeyspace) :
    KSField.apply (KSField.apply t f1) f2 = KSField.apply t f2 := by
  cases f1 <;> cases f2 <;> first
    | rfl
    | (refine absurd h1 ?_; simp [KSField.known]; done)
    | (refine absurd h2 ?_; simp [KSField.known]; done)
    | (simp only [KSField.name] at h; exfalso; revert h; decide)

theorem ksField_apply_stable (f2 m : KSField) (h2 : f2.known)
    (a b : SrvKeyspace) (h : KSField.apply a f2 = KSField.apply b f2) :
    KSField.apply (KSField.apply a m) f2 =
      KSField.apply (KSField.apply b m) f2 := by
  cases f2 <;> first
    | (refine absurd h2 ?_; simp [KSField.known]; done)
    | (cases m <;> first
        | rfl
        | (simp_all [KSField.apply]; done))

theorem ksField_foldl_stable (mid : List KSField) (f2 : KSField)
    (h2 : f2.known) :
    ∀ a b, KSField.apply a f2 = KSField.apply b f2 →
    KSField.apply (mid.foldl KSField.apply a) f2 =
      KSField.apply (mid.foldl KSField.apply b) f2 := by
  induction mid with
  | nil => intro a b h; exact h
  | cons m t ih =>
    intro a b h
    exact ih _ _ (ksField_apply_stable f2 m h2 a b h)

/-- Unmarshalling a document made of any wellformed SrvShard field sequence
equals the fold of the fields' effects. -/
theorem srvShard_unmarshal_items (items : List ShardField) (fuel : Nat)
    (t : SrvShard) (r : List Nat) (hwf : ∀ i ∈ items, i.wf)
    (hf : shardFieldsNeed items ≤ fuel) :
    SrvShard.UnmarshalBson fuel t bson.Object
        (lenDoc (shardFieldsBytes items) ++ r) =
      .ok (items.foldl ShardField.apply t, r) := by
  unfold SrvShard.UnmarshalBson verifyObject
  rw [if_pos rfl]
  simp only [lenDoc, List.append_assoc, List.singleton_append, next4_lenBytes]
  exact srvShardFields_items items fuel t r hwf hf

/-- Unmarshalling a document made of any wellformed KeyspacePartition field
sequence equals the fold of the fields' effects. -/
theorem kp_unmarshal_items (items : List KPField) (fuel : Nat)
    (t : KeyspacePartition) (r : List Nat) (hwf : ∀ i ∈ items, i.wf)
    (hf : kpFieldsNeed items ≤ fuel) :
    KeyspacePartition.UnmarshalBson fuel t bson.Object
        (lenDoc (kpFieldsBytes items) ++ r) =
      .ok (items.foldl KPField.apply t, r) := by
  unfold KeyspacePartition.UnmarshalBson verifyObject
  rw [if_pos rfl]
  simp only [lenDoc, List.append_assoc, List.singleton_append, next4_lenBytes]
  exact kpFields_items items fuel t r hwf hf

/-- Unmarshalling a document made of any wellformed SrvKeyspace field
sequence equals the fold of the fields' effects. -/
theorem srvKeyspace_unmarshal_items (items : List KSField) (fuel : Nat)
    (t : SrvKeyspace) (r : List Nat) (hwf : ∀ i ∈ items, i.wf)
    (hf : ksFieldsNeed items ≤ fuel) :
    SrvKeyspace.UnmarshalBson fuel t bson.Object
        (lenDoc (ksFieldsBytes items) ++ r) =
      .ok (items.foldl KSField.apply t, r) := by
  unfold SrvKeyspace.UnmarshalBson verifyObject
  rw [if_pos rfl]
  simp only [lenDoc, List.append_assoc, List.singleton_append, next4_lenBytes]
  exact srvKeyspaceFields_items items fuel t r hwf hf

/-- C9.  For each object decode (SrvShard, KeyspacePartition, SrvKeyspace)
over a wellformed field sequence: an unrecognized field injected anywhere —
before, between or after known fields — is consumed by its own tag and the
result equals the decode of the buffer without it; fields are accepted in
any order, two sequences that are permutations of one another with distinct
field names decoding to the same result; and when a known field name
repeats, the decode equals that of the buffer with the earlier occurrence
removed — the last occurrence wins. -/
theorem c9_field_dispatch :
    ((∀ (pre post : List ShardField) (nm : GoStr) (v : WireVal) (fuel : Nat)
        (t : SrvShard) (r : List Nat),
      (∀ i ∈ pre ++ post, i.wf) → (ShardField.unknown nm v).wf →
      shardFieldsNeed (pre ++ ShardField.unknown nm v :: post) ≤ fuel →
      shardFieldsNeed (pre ++ post) ≤ fuel →
      SrvShard.UnmarshalBson fuel t bson.Object
          (lenDoc (shardFieldsBytes (pre ++ ShardField.unknown nm v :: post))
            ++ r) =
        SrvShard.UnmarshalBson fuel t bson.Object
          (lenDoc (shardFieldsBytes (pre ++ post)) ++ r)) ∧
    (∀ (items items' : List ShardField) (fuel : Nat) (t : SrvShard)
        (r : List Nat),
      List.Perm items items' → (items.map ShardField.name).Nodup →
      (∀ i ∈ items, i.wf) →
      shardFieldsNeed items ≤ fuel → shardFieldsNeed items' ≤ fuel →
      SrvShard.UnmarshalBson fuel t bson.Object
          (lenDoc (shardFieldsBytes items) ++ r) =
        SrvShard.UnmarshalBson fuel t bson.Object
          (lenDoc (shardFieldsBytes items') ++ r)) ∧
    (∀ (pre mid post : List ShardField) (f1 f2 : ShardField) (fuel : Nat)
        (t : SrvShard) (r : List Nat),
      f1.known → f2.known → f1.name = f2.name →
      (∀ i ∈ pre ++ f1 :: mid ++ f2 :: post, i.wf) →
      shardFieldsNeed (pre ++ f1 :: mid ++ f2 :: post) ≤ fuel →
      shardFieldsNeed (pre ++ mid ++ f2 :: post) ≤ fuel →
      SrvShard.UnmarshalBson fuel t bson.Object
          (lenDoc (shardFieldsBytes (pre ++ f1 :: mid ++ f2 :: post)) ++ r) =
        SrvShard.UnmarshalBson fuel t bson.Object
          (lenDoc (shardFieldsBytes (pre ++ mid ++ f2 :: post)) ++ r))) ∧
    ((∀ (pre post : List KPField) (nm : GoStr) (v : WireVal) (fuel : Nat)
        (t : KeyspacePartition) (r : List Nat),
      (∀ i ∈ pre ++ post, i.wf) → (KPField.unknown nm v).wf →
      kpFieldsNeed (pre ++ KPField.unknown nm v :: post) ≤ fuel →
      kpFieldsNeed (pre ++ post) ≤ fuel →
      KeyspacePartition.UnmarshalBson fuel t bson.Object
          (lenDoc (kpFieldsBytes (pre ++ KPField.unknown nm v :: post)) ++ r) =
        KeyspacePartition.UnmarshalBson fuel t bson.Object
          (lenDoc (kpFieldsBytes (pre ++ post)) ++ r)) ∧
    (∀ (items items' : List KPField) (fuel : Nat) (t : KeyspacePartition)
        (r : List Nat),
      List.Perm items items' → (items.map KPField.name).Nodup →
      (∀ i ∈ items, i.wf) →
      kpFieldsNeed items ≤ fuel → kpFieldsNeed items' ≤ fuel →
      KeyspacePartition.UnmarshalBson fuel t bson.Object
          (lenDoc (kpFieldsBytes items) ++ r) =
        KeyspacePartition.UnmarshalBson fuel t bson.Object
          (lenDoc (kpFieldsBytes items') ++ r)) ∧
    (∀ (pre mid post : List KPField) (f1 f2 : KPField) (fuel : Nat)
        (t : KeyspacePartition) (r : List Nat),
      f1.known → f2.known → f1.name = f2.name →
      (∀ i ∈ pre ++ f1 :: mid ++ f2 :: post, i.wf) →
      kpFieldsNeed (pre ++ f1 :: mid ++ f2 :: post) ≤ fuel →
      kpFieldsNeed (pre ++ mid ++ f2 :: post) ≤ fuel →
      KeyspacePartition.UnmarshalBson fuel t bson.Object
          (lenDoc (kpFieldsBytes (pre ++ f1 :: mid ++ f2 :: post)) ++ r) =
        KeyspacePartition.UnmarshalBson fuel t bson.Object
          (lenDoc (kpFieldsBytes (pre ++ mid ++ f2 :: post)) ++ r))) ∧
    ((∀ (pre post : List KSField) (nm : GoStr) (v : WireVal) (fuel : Nat)
        (t : SrvKeyspace) (r : List Nat),
      (∀ i ∈ pre ++ post, i.wf) → (KSField.unknown nm v).wf →
      ksFieldsNeed (pre ++ KSField.unknown nm v :: post) ≤ fuel →
      ksFieldsNeed (pre ++ post) ≤ fuel →
      SrvKeyspace.UnmarshalBson fuel t bson.Object
          (lenDoc (ksFieldsBytes (pre ++ KSField.unknown nm v :: post)) ++ r) =
        SrvKeyspace.UnmarshalBson fuel t bson.Object
          (lenDoc (ksFieldsBytes (pre ++ post)) ++ r)) ∧
    (∀ (items items' : List KSField) (fuel : Nat) (t : SrvKeyspace)
        (r : List Nat),
      List.Perm items items' → (items.map KSField.name).Nodup →
      (∀ i ∈ items, i.wf) →
      ksFieldsNeed items ≤ fuel → ksFieldsNeed items' ≤ fuel →
      SrvKeyspace.UnmarshalBson fuel t bson.Object
          (lenDoc (ksFieldsBytes items) ++ r) =
        SrvKeyspace.UnmarshalBson fuel t bson.Object
          (lenDoc (ksFieldsBytes items') ++ r)) ∧
    (∀ (pre mid post : List KSField) (f1 f2 : KSField) (fuel : Nat)
        (t : SrvKeyspace) (r : List Nat),
      f1.known → f2.known → f1.name = f2.name →
      (∀ i ∈ pre ++ f1 :: mid ++ f2 :: post, i.wf) →
      ksFieldsNeed (pre ++ f1 :: mid ++ f2 :: post) ≤ fuel →
      ksFieldsNeed (pre ++ mid ++ f2 :: post) ≤ fuel →
      SrvKeyspace.UnmarshalBson fuel t bson.Object
          (lenDoc (ksFieldsBytes (pre ++ f1 :: mid ++ f2 :: post)) ++ r) =
        SrvKeyspace.UnmarshalBson fuel t bson.Object
          (lenDoc (ksFieldsBytes (pre ++ mid ++ f2 :: post)) ++ r))) := by
  refine ⟨⟨?_, ?_, ?_⟩, ⟨?_, ?_, ?_⟩, ⟨?_, ?_, ?_⟩⟩
  · intro pre post nm v fuel t r hwf hu hf1 hf2
    have hwf1 : ∀ i ∈ pre ++ ShardField.unknown nm v :: post, i.wf := by
      intro i hi
      rcases List.mem_append.mp hi with h | h
      · exact hwf i (List.mem_append.mpr (Or.inl h))
      · rcases List.mem_cons.mp h with h | h
        · exact h ▸ hu
        · exact hwf i (List.mem_append.mpr (Or.inr h))
    rw [srvShard_unmarshal_items _ fuel t r hwf1 hf1,
      srvShard_unmarshal_items _ fuel t r hwf hf2]
    simp [List.foldl_append, ShardField.apply]
  · intro items items' fuel t r hperm hnd hwf hf1 hf2
    have hwf' : ∀ i ∈ items', i.wf :=
      fun i hi => hwf i ((List.Perm.mem_iff hperm).mpr hi)
    rw [srvShard_unmarshal_items _ fuel t r hwf hf1,
      srvShard_unmarshal_items _ fuel t r hwf' hf2]
    congr 2
    refine List.Perm.foldl_eq' hperm ?_ t
    intro x hx y hy z
    by_cases hxy : x = y
    · subst hxy; rfl
    · exact shardField_apply_comm x y
        (fun hn => hxy (List.inj_on_of_nodup_map hnd hx hy hn)) z
  · intro pre mid post f1 f2 fuel t r hk1 hk2 hname hwf hf1 hf2
    have hwf2 : ∀ i ∈ pre ++ mid ++ f2 :: post, i.wf := by
      intro i hi
      apply hwf
      simp only [List.mem_append, List.mem_cons] at hi ⊢
      tauto
    rw [srvShard_unmarshal_items _ fuel t r hwf hf1,
      srvShard_unmarshal_items _ fuel t r hwf2 hf2]
    congr 2
    simp only [List.foldl_append, List.foldl_cons]
    exact congrArg (fun s => List.foldl ShardField.apply s post)
      (shardField_foldl_stable mid f2 hk2 _ _
        (shardField_apply_overwrite f1 f2 hname hk1 hk2 _))
  · intro pre post nm v fuel t r hwf hu hf1 hf2
    have hwf1 : ∀ i ∈ pre ++ KPField.unknown nm v :: post, i.wf := by
      intro i hi
      rcases List.mem_append.mp hi with h | h
      · exact hwf i (List.mem_append.mpr (Or.inl h))
      · rcases List.mem_cons.mp h with h | h
        · exact h ▸ hu
        · exact hwf i (List.mem_append.mpr (Or.inr h))
    rw [kp_unmarshal_items _ fuel t r hwf1 hf1,
      kp_unmarshal_items _ fuel t r hwf hf2]
    simp [List.foldl_append, KPField.apply]
  · intro items items' fuel t r hperm hnd hwf hf1 hf2
    have hwf' : ∀ i ∈ items', i.wf :=
      fun i hi => hwf i ((List.Perm.mem_iff hperm).mpr hi)
    rw [kp_unmarshal_items _ fuel t r hwf hf1,
      kp_unmarshal_items _ fuel t r hwf' hf2]
    congr 2
    refine List.Perm.foldl_eq' hperm ?_ t
    intro x hx y hy z
    by_cases hxy : x = y
    · subst hxy; rfl
    · exact kpField_apply_comm x y
        (fun hn => hxy (List.inj_on_of_nodup_map hnd hx hy hn)) z
  · intro pre mid post f1 f2 fuel t r hk1 hk2 hname hwf hf1 hf2
    have hwf2 : ∀ i ∈ pre ++ mid ++ f2 :: post, i.wf := by
      intro i hi
      apply hwf
      simp only [List.mem_append, List.mem_cons] at hi ⊢
      tauto
    rw [kp_unmarshal_items _ fuel t r hwf hf1,
      kp_unmarshal_items _ fuel t r hwf2 hf2]
    congr 2
    simp only [List.foldl_append, List.foldl_cons]
    exact congrArg (fun s => List.foldl KPField.apply s post)
      (kpField_foldl_stable mid f2 hk2 _ _
        (kpField_apply_overwrite f1 f2 hname hk1 hk2 _))
  · intro pre post nm v fuel t r hwf hu hf1 hf2
    have hwf1 : ∀ i ∈ pre ++ KSField.unknown nm v :: post, i.wf := by
      intro i hi
      rcases List.mem_append.mp hi with h | h
      · exact hwf i (List.mem_append.mpr (Or.inl h))
      · rcases List.mem_cons.mp h with h | h
        · exact h ▸ hu
        · exact hwf i (List.mem_append.mpr (Or.inr h))
    rw [srvKeyspace_unmarshal_items _ fuel t r hwf1 hf1,
      srvKeyspace_unmarshal_items _ fuel t r hwf hf2]
    simp [List.foldl_append, KSField.apply]
  · intro items items' fuel t r hperm hnd hwf hf1 hf2
    have hwf' : ∀ i ∈ items', i.wf :=
      fun i hi => hwf i ((List.Perm.mem_iff hperm).mpr hi)
    rw [srvKeyspace_unmarshal_items _ fuel t r hwf hf1,
      srvKeyspace_unmarshal_items _ fuel t r hwf' hf2]
    congr 2
    refine List.Perm.foldl_eq' hperm ?_ t
    intro x hx y hy z
    by_cases hxy : x = y
    · subst hxy; rfl
    · exact ksField_apply_comm x y
        (fun hn => hxy (List.inj_on_of_nodup_map hnd hx hy hn)) z
  · intro pre mid post f1 f2 fuel t r hk1 hk2 hname hwf hf1 hf2
    have hwf2 : ∀ i ∈ pre ++ mid ++ f2 :: post, i.wf := by
      intro i hi
      apply hwf
      simp only [List.mem_append, List.mem_cons] at hi ⊢
      tauto
    rw [srvKeyspace_unmarshal_items _ fuel t r hwf hf1,
      srvKeyspace_unmarshal_items _ fuel t r hwf2 hf2]
    congr 2
    simp only [List.foldl_append, List.foldl_cons]
    exact congrArg (fun s => List.foldl KSField.apply s post)
      (ksField_foldl_stable mid f2 hk2 _ _
        (ksField_apply_overwrite f1 f2 hname hk1 hk2 _))

/-- Witness for C9: for SrvKeyspace, injecting the unrecognized field "zz"
between two known fields leaves the decode unchanged. -/
theorem c9_field_dispatch_witness :
    (∀ i ∈ ([KSField.tabletTypes [[97]]] ++ [KSField.servedFrom []] :
        List KSField), i.wf) ∧
    (KSField.unknown [122, 122] (WireVal.wstr [9])).wf ∧
    ksFieldsNeed ([KSField.tabletTypes [[97]]] ++
      KSField.unknown [122, 122] (WireVal.wstr [9]) :: [KSField.servedFrom []])
      ≤ 50 ∧
    SrvKeyspace.UnmarshalBson 50 SrvKeyspace.zero bson.Object
        (lenDoc (ksFieldsBytes ([KSField.tabletTypes [[97]]] ++
          KSField.unknown [122, 122] (WireVal.wstr [9]) ::
            [KSField.servedFrom []])) ++ []) =
      SrvKeyspace.UnmarshalBson 50 SrvKeyspace.zero bson.Object
        (lenDoc (ksFieldsBytes ([KSField.tabletTypes [[97]]] ++
          [KSField.servedFrom []])) ++ []) :=
  ⟨by decide, by decide, by decide,
    c9_field_dispatch.2.2.1 [KSField.tabletTypes [[97]]] [KSField.servedFrom []]
      [122, 122] (WireVal.wstr [9]) 50 SrvKeyspace.zero []
      (by decide) (by decide) (by decide) (by decide)⟩

theorem shardFoldl_keepKeyRange (items : List ShardField) :
    ∀ t : SrvShard, (∀ i ∈ items, i.name ≠ nmKeyRange) →
      (items.foldl ShardField.apply t).KeyRange = t.KeyRange := by
  induction items with
  | nil => intro t _; rfl
  | cons i rest ih =>
    intro t h
    rw [List.foldl_cons, ih _ (fun j hj => h j (List.mem_cons_of_mem i hj))]
    cases i <;> first
      | rfl
      | exact absurd rfl (h _ (List.mem_cons_self _ _))

theorem shardFoldl_keepServedTypes (items : List ShardField) :
    ∀ t : SrvShard, (∀ i ∈ items, i.name ≠ nmServedTypes) →
      (items.foldl ShardField.apply t).ServedTypes = t.ServedTypes := by
  induction items with
  | nil => intro t _; rfl
  | cons i rest ih =>
    intro t h
    rw [List.foldl_cons, ih _ (fun j hj => h j (List.mem_cons_of_mem i hj))]
    cases i <;> first
      | rfl
      | exact absurd rfl (h _ (List.mem_cons_self _ _))

theorem shardFoldl_keepTabletTypes (items : List ShardField) :
    ∀ t : SrvShard, (∀ i ∈ items, i.name ≠ nmTabletTypes) →
      (items.foldl ShardField.apply t).TabletTypes = t.TabletTypes := by
  induction items with
  | nil => intro t _; rfl
  | cons i rest ih =>
    intro t h
    rw [List.foldl_cons, ih _ (fun j hj => h j (List.mem_cons_of_mem i hj))]
    cases i <;> first
      | rfl
      | exact absurd rfl (h _ (List.mem_cons_self _ _))

theorem shardFoldl_keepVersion (items : List ShardField) :
    ∀ t : SrvShard, (items.foldl ShardField.apply t).version = t.version := by
  induction items with
  | nil => intro t; rfl
  | cons i rest ih =>
    intro t
    rw [List.foldl_cons, ih _]
    cases i <;> rfl

theorem ksFoldl_keepPartitions (items : List KSField) :
    ∀ t : SrvKeyspace, (∀ i ∈ items, i.name ≠ nmPartitions) →
      (items.foldl KSField.apply t).Partitions = t.Partitions := by
  induction items with
  | nil => intro t _; rfl
  | cons i rest ih =>
    intro t h
    rw [List.foldl_cons, ih _ (fun j hj => h j (List.mem_cons_of_mem i hj))]
    cases i <;> first
      | rfl
      | exact absurd rfl (h _ (List.mem_cons_self _ _))

theorem ksFoldl_keepShards (items : List KSField) :
    ∀ t : SrvKeyspace, (∀ i ∈ items, i.name ≠ nmShards) →
      (items.foldl KSField.apply t).Shards = t.Shards := by
  induction items with
  | nil => intro t _; rfl
  | cons i rest ih =>
    intro t h
    rw [List.foldl_cons, ih _ (fun j hj => h j (List.mem_cons_of_mem i hj))]
    cases i <;> first
      | rfl
      | exact absurd rfl (h _ (List.mem_cons_self _ _))

theorem ksFoldl_keepTabletTypes (items : List KSField) :
    ∀ t : SrvKeyspace, (∀ i ∈ items, i.name ≠ nmTabletTypes) →
      (items.foldl KSField.apply t).TabletTypes = t.TabletTypes := by
  induction items with
  | nil => intro t _; rfl
  | cons i rest ih =>
    intro t h
    rw [List.foldl_cons, ih _ (fun j hj => h j (List.mem_cons_of_mem i hj))]
    cases i <;> first
      | rfl
      | exact absurd rfl (h _ (List.mem_cons_self _ _))

theorem ksFoldl_keepShardingColumnName (items : List KSField) :
    ∀ t : SrvKeyspace, (∀ i ∈ items, i.name ≠ nmShardingColumnName) →
      (items.foldl KSField.apply t).ShardingColumnName =
        t.ShardingColumnName := by
  induction items with
  | nil => intro t _; rfl
  | cons i rest ih =>
    intro t h
    rw [List.foldl_cons, ih _ (fun j hj => h j (List.mem_cons_of_mem i hj))]
    cases i <;> first
      | rfl
      | exact absurd rfl (h _ (List.mem_cons_self _ _))

theorem ksFoldl_keepShardingColumnType (items : List KSField) :
    ∀ t : SrvKeyspace, (∀ i ∈ items, i.name ≠ nmShardingColumnType) →
      (items.foldl KSField.apply t).ShardingColumnType =
        t.ShardingColumnType := by
  induction items with
  | nil => intro t _; rfl
  | cons i rest ih =>
    intro t h
    rw [List.foldl_cons, ih _ (fun j hj => h j (List.mem_cons_of_mem i hj))]
    cases i <;> first
      | rfl
      | exact absurd rfl (h _ (List.mem_cons_self _ _))

theorem ksFoldl_keepServedFrom (items : List KSField) :
    ∀ t : SrvKeyspace, (∀ i ∈ items, i.name ≠ nmServedFrom) →
      (items.foldl KSField.apply t).ServedFrom = t.ServedFrom := by
  induction items with
  | nil => intro t _; rfl
  | cons i rest ih =>
    intro t h
    rw [List.foldl_cons, ih _ (fun j hj => h j (List.mem_cons_of_mem i hj))]
    cases i <;> first
      | rfl
      | exact absurd rfl (h _ (List.mem_cons_self _ _))

theorem ksFoldl_keepVersion (items : List KSField) :
    ∀ t : SrvKeyspace, (items.foldl KSField.apply t).version = t.version := by
  induction items with
  | nil => intro t; rfl
  | cons i rest ih =>
    intro t
    rw [List.foldl_cons, ih _]
    cases i <;> rfl

/-- C10.  Decoding merges into the existing target: for any wellformed
buffer of fields, a struct field whose name occurs under no field of the
buffer retains the value the target held before UnmarshalBson, and only
fields present in the buffer are assigned; the version token is always
retained. -/
theorem c10_decode_frame :
    (∀ (items : List ShardField) (fuel : Nat) (t : SrvShard) (r : List Nat),
      (∀ i ∈ items, i.wf) → shardFieldsNeed items ≤ fuel →
      SrvShard.UnmarshalBson fuel t bson.Object
          (lenDoc (shardFieldsBytes items) ++ r) =
        .ok (items.foldl ShardField.apply t, r) ∧
      ((∀ i ∈ items, i.name ≠ nmKeyRange) →
        (items.foldl ShardField.apply t).KeyRange = t.KeyRange) ∧
      ((∀ i ∈ items, i.name ≠ nmServedTypes) →
        (items.foldl ShardField.apply t).ServedTypes = t.ServedTypes) ∧
      ((∀ i ∈ items, i.name ≠ nmTabletTypes) →
        (items.foldl ShardField.apply t).TabletTypes = t.TabletTypes) ∧
      (items.foldl ShardField.apply t).version = t.version) ∧
    (∀ (items : List KSField) (fuel : Nat) (t : SrvKeyspace) (r : List Nat),
      (∀ i ∈ items, i.wf) → ksFieldsNeed items ≤ fuel →
      SrvKeyspace.UnmarshalBson fuel t bson.Object
          (lenDoc (ksFieldsBytes items) ++ r) =
        .ok (items.foldl KSField.apply t, r) ∧
      ((∀ i ∈ items, i.name ≠ nmPartitions) →
        (items.foldl KSField.apply t).Partitions = t.Partitions) ∧
      ((∀ i ∈ items, i.name ≠ nmShards) →
        (items.foldl KSField.apply t).Shards = t.Shards) ∧
      ((∀ i ∈ items, i.name ≠ nmTabletTypes) →
        (items.foldl KSField.apply t).TabletTypes = t.TabletTypes) ∧
      ((∀ i ∈ items, i.name ≠ nmShardingColumnName) →
        (items.foldl KSField.apply t).ShardingColumnName =
          t.ShardingColumnName) ∧
      ((∀ i ∈ items, i.name ≠ nmShardingColumnType) →
        (items.foldl KSField.apply t).ShardingColumnType =
          t.ShardingColumnType) ∧
      ((∀ i ∈ items, i.name ≠ nmServedFrom) →
        (items.foldl KSField.apply t).ServedFrom = t.ServedFrom) ∧
      (items.foldl KSField.apply t).version = t.version) := by
  constructor
  · intro items fuel t r hwf hf
    exact ⟨srvShard_unmarshal_items items fuel t r hwf hf,
      shardFoldl_keepKeyRange items t,
      shardFoldl_keepServedTypes items t,
      shardFoldl_keepTabletTypes items t,
      shardFoldl_keepVersion items t⟩
  · intro items fuel t r hwf hf
    exact ⟨srvKeyspace_unmarshal_items items fuel t r hwf hf,
      ksFoldl_keepPartitions items t,
      ksFoldl_keepShards items t,
      ksFoldl_keepTabletTypes items t,
      ksFoldl_keepShardingColumnName items t,
      ksFoldl_keepShardingColumnType items t,
      ksFoldl_keepServedFrom items t,
      ksFoldl_keepVersion items t⟩

/-- Witness for C10: a buffer holding only a ServedTypes field, decoded into
a target with distinctive KeyRange, TabletTypes and version, retains all
three while assigning ServedTypes. -/
theorem c10_decode_frame_witness :
    (∀ i ∈ ([ShardField.servedTypes [[97]]] : List ShardField), i.wf) ∧
    shardFieldsNeed [ShardField.servedTypes [[97]]] ≤ 9 ∧
    SrvShard.UnmarshalBson 9 ⟨⟨[1], [2]⟩, [], [[3]], 7⟩ bson.Object
        (lenDoc (shardFieldsBytes [ShardField.servedTypes [[97]]]) ++ []) =
      .ok ([ShardField.servedTypes [[97]]].foldl ShardField.apply
        ⟨⟨[1], [2]⟩, [], [[3]], 7⟩, []) ∧
    ((∀ i ∈ ([ShardField.servedTypes [[97]]] : List ShardField),
        i.name ≠ nmKeyRange) →
      ([ShardField.servedTypes [[97]]].foldl ShardField.apply
        ⟨⟨[1], [2]⟩, [], [[3]], 7⟩).KeyRange =
        (⟨⟨[1], [2]⟩, [], [[3]], 7⟩ : SrvShard).KeyRange) :=
  ⟨by decide, by decide,
    ((c10_decode_frame.1 [ShardField.servedTypes [[97]]] 9
      ⟨⟨[1], [2]⟩, [], [[3]], 7⟩ [] (by decide) (by decide)).1),
    fun h => (c10_decode_frame.1 [ShardField.servedTypes [[97]]] 9
      ⟨⟨[1], [2]⟩, [], [[3]], 7⟩ [] (by decide) (by decide)).2.1 h⟩

/-- C5, counterexample.  The claim says every mismatched scalar slot raises a
hard decode fault, with no silent skipping; but `DecodeServedFrom`'s entry
switch has no default case: on this buffer, whose single map entry "k" has a
Null-tagged value slot, the decode returns the empty map with no fault — the
mismatched slot is silently dropped. -/
theorem c5_counterexample :
    DecodeServedFrom 9 bson.Object [4, 0, 0, 0, 10, 107, 0, 0] =
      .ok ([], []) := by rfl

/-- C5, amended.  A TabletType sequence element slot whose tag is not Binary
raises a hard decode fault naming the offending tag and the array context;
but a ServedFrom value slot whose tag is neither String nor Binary is not a
fault: the switch falls through, assigning nothing and consuming no value
body, so the entry is silently dropped (for the bodyless Null tag) or the
remaining bytes are misread (for tags with a body). -/
theorem c5_scalar_tag_mismatch :
    (∀ (fuel : Nat) (acc : List TabletType) (k : Nat) (buf : List Nat),
      k ≠ bson.EOO → k ≠ bson.Binary →
      tabletTypeElems (fuel + 1) acc (k :: buf) =
        .error (.unexpectedTag k "TabletType array")) ∧
    (∀ (fuel : Nat) (acc : List (TabletType × GoStr)) (k : Nat) (key : GoStr)
        (rest : List Nat),
      k ≠ bson.EOO → k ≠ bson.StringTag → k ≠ bson.Binary → 0 ∉ key →
      servedFromElems (fuel + 1) acc (k :: (key ++ 0 :: rest)) =
        servedFromElems fuel acc rest) := by
  constructor
  · intro fuel acc k buf h1 h2
    rw [tabletTypeElems]
    simp only [nextByte]
    rw [if_neg h1, if_pos h2]
  · intro fuel acc k key rest h1 h2 h3 h0
    rw [servedFromElems]
    simp only [nextByte]
    rw [if_neg h1, readCString_encode _ _ h0]
    simp only []
    rw [if_neg (by simp [h2, h3])]

/-- Witness for the amended C5 at the Null tag for both conjuncts. -/
theorem c5_scalar_tag_mismatch_witness :
    (bson.Null ≠ bson.EOO ∧ bson.Null ≠ bson.Binary ∧
      tabletTypeElems 4 [] (bson.Null :: [1, 2]) =
        .error (.unexpectedTag bson.Null "TabletType array")) ∧
    (bson.Null ≠ bson.StringTag ∧ (0 : Nat) ∉ ([107] : GoStr) ∧
      servedFromElems 4 [] (bson.Null :: ([107] ++ 0 :: [0])) =
        servedFromElems 3 [] [0]) :=
  ⟨⟨by decide, by decide,
    c5_scalar_tag_mismatch.1 3 [] bson.Null [1, 2] (by decide) (by decide)⟩,
   ⟨by decide, by decide,
    c5_scalar_tag_mismatch.2 3 [] bson.Null [107] [0] (by decide) (by decide)
      (by decide) (by decide)⟩⟩

end Vitess
